import Mathlib

/-!
Shallow embedding of the WasDev editor core (src/main.rs).

The buffer content is modelled as a `List Char` (the Unicode scalar values of the
UTF-8 string) and every offset is a byte offset, exactly as in the Rust source:
byte lengths are computed with `Char.utf8Size`, and the slicing primitives
`byteTake`/`byteDrop` mirror Rust's `&s[..b]` / `&s[b..]` string slicing.  Rust
slicing panics on a non-character-boundary offset; the model is total, and the
theorems carry explicit boundary hypotheses (`isBoundaryB`) where the source
relies on offsets being boundaries by construction.
-/

namespace WasDev

/-- Total number of bytes of the UTF-8 encoding of the character list, modelling
`str::len` of the Rust source. -/
def utf8Len : List Char → Nat
  | [] => 0
  | c :: s => c.utf8Size + utf8Len s

/-- Models `&s[..b]`: the characters making up the first `b` bytes.  On a
character boundary this is exactly the Rust prefix slice (Rust panics off a
boundary; here the character containing byte `b` is included whole). -/
def byteTake : List Char → Nat → List Char
  | _, 0 => []
  | [], _ + 1 => []
  | c :: s, n + 1 => c :: byteTake s (n + 1 - c.utf8Size)

/-- Models `&s[b..]`: the characters after the first `b` bytes.  On a character
boundary this is exactly the Rust suffix slice. -/
def byteDrop : List Char → Nat → List Char
  | s, 0 => s
  | [], _ + 1 => []
  | c :: s, n + 1 => byteDrop s (n + 1 - c.utf8Size)

/-- Decides whether byte offset `b` is a character boundary of `s` (including
`b = utf8Len s`), the invariant Rust's `str` slicing requires. -/
def isBoundaryB : List Char → Nat → Bool
  | _, 0 => true
  | [], _ + 1 => false
  | c :: s, n + 1 => if c.utf8Size ≤ n + 1 then isBoundaryB s (n + 1 - c.utf8Size) else false

/-- Models `str::char_indices` starting at base byte offset `b`: the list of
(byte offset, character) pairs. -/
def charIndicesAux : Nat → List Char → List (Nat × Char)
  | _, [] => []
  | b, c :: s => (b, c) :: charIndicesAux (b + c.utf8Size) s

/-- Models `str::char_indices`: each character of `s` paired with its byte offset. -/
def charIndices (s : List Char) : List (Nat × Char) :=
  charIndicesAux 0 s

/-- Models `str::find(char)` for a single-character pattern: the byte index of
the first occurrence. -/
def findChar : List Char → Char → Option Nat
  | [], _ => none
  | x :: t, c => if x = c then some 0 else (findChar t c).map (fun p => x.utf8Size + p)

/-- Models `str::rfind(char)` for a single-character pattern: the byte index of
the last occurrence. -/
def rfindChar : List Char → Char → Option Nat
  | [], _ => none
  | x :: t, c =>
    match rfindChar t c with
    | some p => some (x.utf8Size + p)
    | none => if x = c then some 0 else none

/-- Boolean test that `pat` is a leading segment of `s`, as Rust's substring
matcher checks at each position. -/
def leadsWith : List Char → List Char → Bool
  | [], _ => true
  | _ :: _, [] => false
  | a :: pa, b :: sb => a == b && leadsWith pa sb

/-- Models `str::contains(&str)`: whether `pat` occurs as a contiguous substring
of `s`.  Byte-level and character-level occurrences agree because UTF-8 is
self-synchronising, so the character-list formulation is faithful. -/
def containsSub : List Char → List Char → Bool
  | [], pat => leadsWith pat []
  | c :: t, pat => leadsWith pat (c :: t) || containsSub t pat

/-- Fuel-driven worker for `replaceList`; the fuel only makes the recursion
structural (it is always run with enough fuel) and carries no semantics. -/
def replaceFuel (pat rep : List Char) : Nat → List Char → List Char
  | _, [] => []
  | 0, s => s
  | n + 1, c :: s =>
    if leadsWith pat (c :: s) && !pat.isEmpty then
      rep ++ replaceFuel pat rep n (s.drop (pat.length - 1))
    else
      c :: replaceFuel pat rep n s

/-- Models `str::replace(pat, rep)`: replace every non-overlapping occurrence of
`pat`, scanning left to right and skipping past each match.  (Rust's behaviour
for an empty pattern is different, but the source only ever replaces non-empty
marker strings, and this model leaves `s` unchanged for an empty pattern.) -/
def replaceList (pat rep s : List Char) : List Char :=
  replaceFuel pat rep s.length s

/-- The `Editor` struct of the source: current selection string, its byte
boundaries, and the boundaries recorded when the selection was first created. -/
structure Editor where
  selection : List Char
  selection_start : Nat
  selection_end : Nat
  original_selection_start : Nat
  original_selection_end : Nat
deriving DecidableEq

/-- `Editor::new`: an editor with no selection. -/
def Editor.new : Editor :=
  ⟨[], 0, 0, 0, 0⟩

/-- `Editor::update_selection`: if the boundaries coincide the selection is
cleared, otherwise it becomes `content[selection_start..selection_end]`; the
boundary fields are updated in either case. -/
def Editor.update_selection (self : Editor) (content : List Char)
    (selection_start selection_end : Nat) : Editor :=
  if selection_start = selection_end then
    { self with
      selection := []
      selection_start := selection_start
      selection_end := selection_end }
  else
    { self with
      selection := byteDrop (byteTake content selection_end) selection_start
      selection_start := selection_start
      selection_end := selection_end }

/-- Combined state a key callback can read and write: the shared `Editor` plus
the text area's content and cursor byte offset. -/
structure EditorView where
  ed : Editor
  content : List Char
  cursor : Nat
deriving DecidableEq

/-- The Ctrl+d callback (MoveRight): if the cursor is not at end of content,
advance it by the byte length of the character it sits on. -/
def moveRight (content : List Char) (cur : Nat) : Nat :=
  if cur < utf8Len content then
    match byteDrop content cur with
    | nextChar :: _ => cur + nextChar.utf8Size
    | [] => cur
  else cur

/-- The Ctrl+a callback (MoveLeft): if the cursor is positive, move to the byte
index of the last character of `content[..cur]` (0 for an empty slice). -/
def moveLeft (content : List Char) (cur : Nat) : Nat :=
  if cur > 0 then
    match (charIndices (byteTake content cur)).getLast? with
    | some pc => pc.1
    | none => 0
  else cur

/-- The Ctrl+s callback (MoveDown): sticky-column move to the next line.  The
column-to-offset loop scans `char_indices` of `content[next_line_start..]` and
keeps the default `next_line_start` when the loop never reaches `new_col`. -/
def moveDown (content : List Char) (cur : Nat) : Nat :=
  let currentLineStart :=
    match rfindChar (byteTake content cur) '\n' with
    | some pos => pos + 1
    | none => 0
  let col := (byteDrop (byteTake content cur) currentLineStart).length
  let currentLineEnd :=
    match findChar (byteDrop content cur) '\n' with
    | some pos => cur + pos
    | none => utf8Len content
  if currentLineEnd < utf8Len content then
    let nextLineStart := currentLineEnd + 1
    let nextLineEnd :=
      match findChar (byteDrop content nextLineStart) '\n' with
      | some pos => nextLineStart + pos
      | none => utf8Len content
    let nextLineLength := (byteDrop (byteTake content nextLineEnd) nextLineStart).length
    let newCol := min col nextLineLength
    match (charIndices (byteDrop content nextLineStart))[newCol]? with
    | some pc => nextLineStart + pc.1
    | none => nextLineStart
  else cur

/-- The Ctrl+w callback (MoveUp): sticky-column move to the previous line, the
mirror image of `moveDown`. -/
def moveUp (content : List Char) (cur : Nat) : Nat :=
  let currentLineStart :=
    match rfindChar (byteTake content cur) '\n' with
    | some pos => pos + 1
    | none => 0
  let col := (byteDrop (byteTake content cur) currentLineStart).length
  if currentLineStart > 0 then
    let prevLineStart :=
      match rfindChar (byteTake content (currentLineStart - 1)) '\n' with
      | some pos => pos + 1
      | none => 0
    let prevLineLength :=
      (byteDrop (byteTake content (currentLineStart - 1)) prevLineStart).length
    let newCol := min col prevLineLength
    match (charIndices (byteDrop content prevLineStart))[newCol]? with
    | some pc => prevLineStart + pc.1
    | none => prevLineStart
  else cur

/-- The Ctrl+Space callback (ToggleSelection).  With no active selection it
selects the character under the cursor, records the original boundaries,
renders `prefix<|sel|>suffix` and puts the cursor 2 bytes further; with an
active selection it replaces the marked substring `<|sel|>` by `sel`, clears
the selection state to the cursor position and moves the cursor back 2 bytes
(saturating). -/
def toggleSelection (st : EditorView) : EditorView :=
  let origCursor := st.cursor
  let content := st.content
  if st.ed.selection = [] then
    if origCursor < utf8Len content then
      match byteDrop content origCursor with
      | ch :: _ =>
        let e := origCursor + ch.utf8Size
        let ed1 := st.ed.update_selection content origCursor e
        let ed2 := { ed1 with
          original_selection_start := origCursor
          original_selection_end := e }
        { ed := ed2
          content := byteTake content origCursor ++
            '<' :: '|' :: (ed2.selection ++ '|' :: '>' :: byteDrop content e)
          cursor := origCursor + 2 }
      | [] => st
    else st
  else
    { ed := { st.ed with
        selection := []
        selection_start := origCursor
        selection_end := origCursor }
      content := replaceList ('<' :: '|' :: (st.ed.selection ++ ['|', '>'])) st.ed.selection content
      cursor := origCursor - 2 }

/-- `content.replace("<|", "").replace("|>", "")`: the marker-stripping step
every selection command performs first. -/
def stripMarkers (s : List Char) : List Char :=
  replaceList ['|', '>'] [] (replaceList ['<', '|'] [] s)

/-- The Ctrl+p callback (ExpandSelection): strip markers, widen the recorded
boundaries left to just past the nearest preceding space (or 0) and right to
the nearest following space (or end of content), update the selection state,
and re-render the markers; the cursor is not touched. -/
def expandSelection (st : EditorView) : EditorView :=
  let cleanedContent := stripMarkers st.content
  let selStart := st.ed.selection_start
  let selEnd := st.ed.selection_end
  let newBoundL :=
    if selStart > 0 then
      match rfindChar (byteTake cleanedContent selStart) ' ' with
      | some pos => pos + 1
      | none => 0
    else 0
  let newBoundR :=
    match findChar (byteDrop cleanedContent selEnd) ' ' with
    | some pos => selEnd + pos
    | none => utf8Len cleanedContent
  let ed2 := st.ed.update_selection cleanedContent newBoundL newBoundR
  { ed := ed2
    content := byteTake cleanedContent newBoundL ++
      '<' :: '|' :: (ed2.selection ++ '|' :: '>' :: byteDrop cleanedContent newBoundR)
    cursor := st.cursor }

/-- The Ctrl+n callback (ReduceSelection): strip markers, restore the selection
state to the recorded original boundaries, re-render the markers at those
boundaries and put the cursor 2 bytes past the restored left boundary. -/
def reduceSelection (st : EditorView) : EditorView :=
  let cleanedContent := stripMarkers st.content
  let origStart := st.ed.original_selection_start
  let origEnd := st.ed.original_selection_end
  let ed2 := st.ed.update_selection cleanedContent origStart origEnd
  { ed := ed2
    content := byteTake cleanedContent origStart ++
      '<' :: '|' :: (byteDrop (byteTake cleanedContent origEnd) origStart ++
        '|' :: '>' :: byteDrop cleanedContent origEnd)
    cursor := origStart + 2 }

/-- Iterated ExpandSelection, for properties about repeated Ctrl+p presses. -/
def expandIter : Nat → EditorView → EditorView
  | 0, st => st
  | n + 1, st => expandSelection (expandIter n st)

/-- Models `char::is_whitespace` of the Rust standard library: the Unicode
characters with the White_Space property. -/
def rustIsWhitespace (c : Char) : Bool :=
  c.val = 0x09 || c.val = 0x0A || c.val = 0x0B || c.val = 0x0C || c.val = 0x0D ||
  c.val = 0x20 || c.val = 0x85 || c.val = 0xA0 || c.val = 0x1680 ||
  (0x2000 ≤ c.val && c.val ≤ 0x200A) ||
  c.val = 0x2028 || c.val = 0x2029 || c.val = 0x202F || c.val = 0x205F || c.val = 0x3000

/-- Models `char::to_uppercase` restricted to its ASCII behaviour (the full
Unicode case table lives outside the repository); every claim about
`capitalize` only exercises this range. -/
def charToUppercase (c : Char) : List Char :=
  [c.toUpper]

/-- The per-word body of `capitalize`: uppercase the first character, keep the
rest of the word unchanged; an empty word maps to the empty string. -/
def capWord : List Char → List Char
  | [] => []
  | first :: rest => charToUppercase first ++ rest

/-- Fuel-driven worker for `splitWhitespace`; fuel only makes the recursion
structural and is always sufficient. -/
def splitWsFuel : Nat → List Char → List (List Char)
  | _, [] => []
  | 0, _ :: _ => []
  | n + 1, c :: s =>
    if rustIsWhitespace c then
      splitWsFuel n s
    else
      (c :: s.takeWhile (fun x => !rustIsWhitespace x)) ::
        splitWsFuel n (s.dropWhile (fun x => !rustIsWhitespace x))

/-- Models `str::split_whitespace` collected into a list: the maximal runs of
non-whitespace characters, in order. -/
def splitWhitespace (s : List Char) : List (List Char) :=
  splitWsFuel s.length s

/-- The `capitalize` function of the source: capitalize each whitespace-split
word and rejoin the words with single spaces. -/
def capitalize (text : List Char) : List Char :=
  List.intercalate [' '] ((splitWhitespace text).map capWord)

/-- The `Choice` enum of the transformation menu. -/
inductive Choice
  | Upper
  | Lower
  | Cap
deriving DecidableEq

/-- The transformation the Ctrl+u menu applies on submit.  Upper and Lower model
`str::to_uppercase`/`str::to_lowercase` through the ASCII case maps (the full
Unicode tables live outside the repository); `Cap` calls `capitalize`. -/
def transform (content : List Char) : Choice → List Char
  | Choice.Upper => content.map Char.toUpper
  | Choice.Lower => content.map Char.toLower
  | Choice.Cap => capitalize content

/-- Modelled from the spec's words (section 4.4): cutting the content at every
whitespace character; the empty pieces arising between adjacent whitespace
characters are later discarded, so the non-empty pieces are exactly the runs of
non-whitespace characters — "split content on runs of whitespace". -/
def splitPieces (p : Char → Bool) : List Char → List (List Char)
  | [] => [[]]
  | c :: s =>
    if p c then [] :: splitPieces p s
    else (splitPieces p s).modifyHead (fun w => c :: w)

/-- Modelled from the spec's words (section 4.4): uppercase the first character
of a word and leave the remainder unchanged. -/
def upperFirst : List Char → List Char
  | [] => []
  | c :: rest => c.toUpper :: rest

/-- Text containing none of the three marker characters.  Within such text the
textual marker insertion and removal of the selection commands cannot collide
with pre-existing content; the colliding case is explicitly unspecified (spec
section 9). -/
def MarkerFree (s : List Char) : Prop :=
  '<' ∉ s ∧ '|' ∉ s ∧ '>' ∉ s

/-- The SelectionEngine state invariant of the spec (section 3):
`selection_start ≤ selection_end`, and when the selection string is empty the
two boundaries coincide. -/
def SelInv (ed : Editor) : Prop :=
  ed.selection_start ≤ ed.selection_end ∧
  (ed.selection = [] → ed.selection_start = ed.selection_end)

/-! Byte-length and slicing lemmas. -/

theorem utf8Len_append (a b : List Char) : utf8Len (a ++ b) = utf8Len a + utf8Len b := by
  induction a with
  | nil => simp [utf8Len]
  | cons c a ih => simp [utf8Len, ih]; omega

theorem utf8Len_eq_zero {s : List Char} : utf8Len s = 0 ↔ s = [] := by
  cases s with
  | nil => simp [utf8Len]
  | cons c t =>
    have := c.utf8Size_pos
    simp [utf8Len]
    omega

theorem byteTake_zero (s : List Char) : byteTake s 0 = [] := by
  cases s <;> rfl

theorem byteDrop_zero (s : List Char) : byteDrop s 0 = s := by
  cases s <;> rfl

theorem byteTake_cons_of_pos (c : Char) (s : List Char) {n : Nat} (h : 0 < n) :
    byteTake (c :: s) n = c :: byteTake s (n - c.utf8Size) := by
  cases n with
  | zero => omega
  | succ n => rfl

theorem byteDrop_cons_of_pos (c : Char) (s : List Char) {n : Nat} (h : 0 < n) :
    byteDrop (c :: s) n = byteDrop s (n - c.utf8Size) := by
  cases n with
  | zero => omega
  | succ n => rfl

theorem byteTake_append_len (A B : List Char) : byteTake (A ++ B) (utf8Len A) = A := by
  induction A with
  | nil => simpa [utf8Len] using byteTake_zero B
  | cons c A ih =>
    have hpos := c.utf8Size_pos
    have hlen : utf8Len (c :: A) = c.utf8Size + utf8Len A := rfl
    rw [List.cons_append, byteTake_cons_of_pos c (A ++ B) (by omega)]
    rw [show utf8Len (c :: A) - c.utf8Size = utf8Len A by omega, ih]

theorem byteDrop_append_len (A B : List Char) : byteDrop (A ++ B) (utf8Len A) = B := by
  induction A with
  | nil => simpa [utf8Len] using byteDrop_zero B
  | cons c A ih =>
    have hpos := c.utf8Size_pos
    have hlen : utf8Len (c :: A) = c.utf8Size + utf8Len A := rfl
    rw [List.cons_append, byteDrop_cons_of_pos c (A ++ B) (by omega)]
    rw [show utf8Len (c :: A) - c.utf8Size = utf8Len A by omega, ih]

theorem byteDrop_utf8Len_self (A : List Char) : byteDrop A (utf8Len A) = [] := by
  have := byteDrop_append_len A []
  rwa [List.append_nil] at this

theorem byteTake_append_le (A B : List Char) {p : Nat} (h : p ≤ utf8Len A) :
    byteTake (A ++ B) p = byteTake A p := by
  induction A generalizing p with
  | nil =>
    have : p = 0 := by simpa [utf8Len] using h
    subst this
    simp [byteTake_zero]
  | cons c A ih =>
    cases p with
    | zero => simp [byteTake_zero]
    | succ n =>
      have hlen : utf8Len (c :: A) = c.utf8Size + utf8Len A := rfl
      rw [List.cons_append,
        byteTake_cons_of_pos c (A ++ B) (Nat.succ_pos n),
        byteTake_cons_of_pos c A (Nat.succ_pos n),
        ih (by omega)]

theorem byteDrop_append_le (A B : List Char) {p : Nat} (h : p ≤ utf8Len A) :
    byteDrop (A ++ B) p = byteDrop A p ++ B := by
  induction A generalizing p with
  | nil =>
    have : p = 0 := by simpa [utf8Len] using h
    subst this
    simp [byteDrop_zero]
  | cons c A ih =>
    cases p with
    | zero => simp [byteDrop_zero]
    | succ n =>
      have hlen : utf8Len (c :: A) = c.utf8Size + utf8Len A := rfl
      rw [List.cons_append,
        byteDrop_cons_of_pos c (A ++ B) (Nat.succ_pos n),
        byteDrop_cons_of_pos c A (Nat.succ_pos n),
        ih (by omega)]

/-! Boundary lemmas. -/

theorem isBoundaryB_zero (s : List Char) : isBoundaryB s 0 = true := by
  cases s <;> rfl

theorem isBoundaryB_cons (c : Char) (s : List Char) (n : Nat) :
    isBoundaryB (c :: s) (n + 1) =
      if c.utf8Size ≤ n + 1 then isBoundaryB s (n + 1 - c.utf8Size) else false := rfl

theorem isBoundaryB_utf8Len_take (s : List Char) (k : Nat) :
    isBoundaryB s (utf8Len (s.take k)) = true := by
  induction s generalizing k with
  | nil =>
    rw [List.take_nil]
    rfl
  | cons c t ih =>
    cases k with
    | zero => exact isBoundaryB_zero _
    | succ k =>
      have hpos := c.utf8Size_pos
      have hform : utf8Len ((c :: t).take (k + 1)) = c.utf8Size + utf8Len (t.take k) := rfl
      rw [hform]
      obtain ⟨n, hn⟩ : ∃ n, c.utf8Size + utf8Len (t.take k) = n + 1 :=
        ⟨c.utf8Size + utf8Len (t.take k) - 1, by omega⟩
      rw [hn, isBoundaryB_cons, if_pos (by omega),
        show n + 1 - c.utf8Size = utf8Len (t.take k) by omega]
      exact ih k

theorem exists_take_of_isBoundaryB {s : List Char} {b : Nat} (h : isBoundaryB s b = true) :
    ∃ k, k ≤ s.length ∧ b = utf8Len (s.take k) := by
  induction s generalizing b with
  | nil =>
    cases b with
    | zero => exact ⟨0, by simp [utf8Len]⟩
    | succ n => simp [isBoundaryB] at h
  | cons c t ih =>
    cases b with
    | zero => exact ⟨0, by simp [utf8Len]⟩
    | succ n =>
      rw [isBoundaryB_cons] at h
      split at h
      · obtain ⟨k, hk, he⟩ := ih h
        refine ⟨k + 1, by simpa using hk, ?_⟩
        have hform : utf8Len ((c :: t).take (k + 1)) = c.utf8Size + utf8Len (t.take k) := rfl
        omega
      · simp at h

theorem utf8Len_take_le (s : List Char) (k : Nat) : utf8Len (s.take k) ≤ utf8Len s := by
  conv_rhs => rw [← List.take_append_drop k s]
  rw [utf8Len_append]
  omega

theorem isBoundaryB_le {s : List Char} {b : Nat} (h : isBoundaryB s b = true) :
    b ≤ utf8Len s := by
  obtain ⟨k, _, rfl⟩ := exists_take_of_isBoundaryB h
  exact utf8Len_take_le s k

theorem byteTake_utf8Len_take (s : List Char) (k : Nat) :
    byteTake s (utf8Len (s.take k)) = s.take k := by
  have := byteTake_append_len (s.take k) (s.drop k)
  rwa [List.take_append_drop] at this

theorem byteDrop_utf8Len_take (s : List Char) (k : Nat) :
    byteDrop s (utf8Len (s.take k)) = s.drop k := by
  have := byteDrop_append_len (s.take k) (s.drop k)
  rwa [List.take_append_drop] at this

theorem utf8Len_take_mono (s : List Char) {k l : Nat} (h : k ≤ l) :
    utf8Len (s.take k) ≤ utf8Len (s.take l) := by
  have heq : (s.take l).take k = s.take k := by
    rw [List.take_take, Nat.min_eq_left h]
  calc utf8Len (s.take k) = utf8Len ((s.take l).take k) := by rw [heq]
    _ ≤ utf8Len (s.take l) := utf8Len_take_le _ k

/-! Lemmas about `charIndices`, `findChar` and `rfindChar`. -/

theorem charIndicesAux_append (b : Nat) (A B : List Char) :
    charIndicesAux b (A ++ B) = charIndicesAux b A ++ charIndicesAux (b + utf8Len A) B := by
  induction A generalizing b with
  | nil => simp [charIndicesAux, utf8Len]
  | cons c A ih => simp [charIndicesAux, ih, utf8Len, Nat.add_assoc]

theorem le_of_mem_charIndicesAux {b p : Nat} {c : Char} {s : List Char}
    (h : (p, c) ∈ charIndicesAux b s) : b ≤ p := by
  induction s generalizing b with
  | nil => simp [charIndicesAux] at h
  | cons d t ih =>
    rcases (by simpa [charIndicesAux] using h : (p = b ∧ c = d) ∨ (p, c) ∈ charIndicesAux (b + d.utf8Size) t) with h1 | h2
    · omega
    · have := ih h2
      omega

theorem mem_charIndicesAux_decomp {b p : Nat} {c : Char} {s : List Char}
    (h : (p, c) ∈ charIndicesAux b s) :
    ∃ A₁ A₂, s = A₁ ++ c :: A₂ ∧ p = b + utf8Len A₁ := by
  induction s generalizing b with
  | nil => simp [charIndicesAux] at h
  | cons d t ih =>
    rcases (by simpa [charIndicesAux] using h : (p = b ∧ c = d) ∨ (p, c) ∈ charIndicesAux (b + d.utf8Size) t) with ⟨h1, h2⟩ | h2
    · exact ⟨[], t, by simp [h2], by simp [utf8Len, h1]⟩
    · obtain ⟨A₁, A₂, rfl, hp⟩ := ih h2
      exact ⟨d :: A₁, A₂, rfl, by simp [utf8Len]; omega⟩

theorem mem_charIndicesAux_mem {b p : Nat} {c : Char} {s : List Char}
    (h : (p, c) ∈ charIndicesAux b s) : c ∈ s := by
  obtain ⟨A₁, A₂, rfl, _⟩ := mem_charIndicesAux_decomp h
  simp

theorem charIndicesAux_getLast_concat (b : Nat) (A : List Char) (c : Char) :
    (charIndicesAux b (A ++ [c])).getLast? = some (b + utf8Len A, c) := by
  rw [charIndicesAux_append]
  have : charIndicesAux (b + utf8Len A) [c] = [(b + utf8Len A, c)] := rfl
  rw [this, List.getLast?_concat]

theorem findChar_some {s : List Char} {c : Char} {p : Nat} (h : findChar s c = some p) :
    ∃ A₁ A₂, s = A₁ ++ c :: A₂ ∧ p = utf8Len A₁ ∧ ∀ x ∈ A₁, x ≠ c := by
  induction s generalizing p with
  | nil => simp [findChar] at h
  | cons x t ih =>
    rw [findChar] at h
    split at h
    · refine ⟨[], t, by simp [*], by simpa [utf8Len] using (Option.some_inj.mp h).symm, by simp⟩
    · cases hf : findChar t c with
      | none => rw [hf] at h; simp at h
      | some q =>
        rw [hf] at h
        simp at h
        obtain ⟨A₁, A₂, rfl, rfl, hall⟩ := ih hf
        refine ⟨x :: A₁, A₂, rfl, by simp [utf8Len]; omega, ?_⟩
        intro z hz
        rcases List.mem_cons.mp hz with rfl | hz
        · assumption
        · exact hall z hz

theorem findChar_none {s : List Char} {c : Char} (h : findChar s c = none) :
    ∀ x ∈ s, x ≠ c := by
  induction s with
  | nil => simp
  | cons x t ih =>
    rw [findChar] at h
    split at h
    · simp at h
    · intro z hz
      rcases List.mem_cons.mp hz with rfl | hz
      · assumption
      · cases hf : findChar t c with
        | none => exact ih hf z hz
        | some q => rw [hf] at h; simp at h

theorem findChar_cons_self (c : Char) (t : List Char) : findChar (c :: t) c = some 0 := by
  rw [findChar, if_pos rfl]

theorem rfindChar_none {s : List Char} {c : Char} (h : rfindChar s c = none) : c ∉ s := by
  induction s with
  | nil => simp
  | cons x t ih =>
    rw [rfindChar] at h
    intro hmem
    cases hf : rfindChar t c with
    | some q => rw [hf] at h; simp at h
    | none =>
      rw [hf] at h
      rcases List.mem_cons.mp hmem with rfl | hmem
      · rw [if_pos rfl] at h; simp at h
      · exact ih hf hmem

theorem rfindChar_some {s : List Char} {c : Char} {p : Nat} (h : rfindChar s c = some p) :
    ∃ A₁ A₂, s = A₁ ++ c :: A₂ ∧ p = utf8Len A₁ ∧ ∀ x ∈ A₂, x ≠ c := by
  induction s generalizing p with
  | nil => simp [rfindChar] at h
  | cons x t ih =>
    cases hf : rfindChar t c with
    | some q =>
      simp only [rfindChar, hf] at h
      rw [Option.some_inj] at h
      obtain ⟨A₁, A₂, rfl, rfl, hall⟩ := ih hf
      exact ⟨x :: A₁, A₂, rfl, by simp [utf8Len]; omega, hall⟩
    | none =>
      simp only [rfindChar, hf] at h
      split at h
      · refine ⟨[], t, by simp [*], by simpa [utf8Len] using (Option.some_inj.mp h).symm, ?_⟩
        intro z hz
        exact fun hzc => rfindChar_none hf (hzc ▸ hz)
      · simp at h

theorem rfindChar_concat_self (A : List Char) (c : Char) :
    rfindChar (A ++ [c]) c = some (utf8Len A) := by
  induction A with
  | nil => simp [rfindChar, utf8Len]
  | cons x A ih =>
    rw [List.cons_append]
    simp only [rfindChar, ih]
    rfl

/-! Lemmas about substring matching and `replaceList`. -/

theorem leadsWith_iff {pat s : List Char} : leadsWith pat s = true ↔ ∃ t, s = pat ++ t := by
  induction pat generalizing s with
  | nil => simp [leadsWith]
  | cons a pa ih =>
    cases s with
    | nil => simp [leadsWith]
    | cons b sb =>
      rw [leadsWith]
      simp only [Bool.and_eq_true, beq_iff_eq, ih, List.cons_append, List.cons_eq_cons]
      constructor
      · rintro ⟨rfl, t, rfl⟩
        exact ⟨t, rfl, rfl⟩
      · rintro ⟨t, rfl, rfl⟩
        exact ⟨rfl, t, rfl⟩

theorem leadsWith_append_self (pat t : List Char) : leadsWith pat (pat ++ t) = true :=
  leadsWith_iff.mpr ⟨t, rfl⟩

theorem containsSub_iff {s pat : List Char} :
    containsSub s pat = true ↔ ∃ A B, s = A ++ pat ++ B := by
  induction s with
  | nil =>
    rw [containsSub, leadsWith_iff]
    constructor
    · rintro ⟨t, ht⟩
      exact ⟨[], t, by simpa using ht⟩
    · rintro ⟨A, B, hAB⟩
      have h1 := List.append_eq_nil.mp hAB.symm
      have h2 := List.append_eq_nil.mp h1.1
      exact ⟨[], by simp [h2.2]⟩
  | cons c t ih =>
    rw [containsSub, Bool.or_eq_true, leadsWith_iff, ih]
    constructor
    · rintro (⟨r, hr⟩ | ⟨A, B, rfl⟩)
      · exact ⟨[], r, by simpa using hr⟩
      · exact ⟨c :: A, B, rfl⟩
    · rintro ⟨A, B, hAB⟩
      cases A with
      | nil => exact Or.inl ⟨B, by simpa using hAB⟩
      | cons a A =>
        rw [List.cons_append, List.cons_append, List.cons_eq_cons] at hAB
        exact Or.inr ⟨A, B, hAB.2⟩

theorem containsSub_of_parts {s pat : List Char} (A B : List Char) (h : s = A ++ pat ++ B) :
    containsSub s pat = true :=
  containsSub_iff.mpr ⟨A, B, h⟩

theorem containsSub_false_cons {c : Char} {t pat : List Char}
    (h : containsSub (c :: t) pat = false) : containsSub t pat = false := by
  rw [containsSub, Bool.or_eq_false_iff] at h
  exact h.2

theorem containsSub_false_right {A B pat : List Char}
    (h : containsSub (A ++ B) pat = false) : containsSub B pat = false := by
  rw [← Bool.not_eq_true] at h ⊢
  intro hc
  apply h
  obtain ⟨X, Y, rfl⟩ := containsSub_iff.mp hc
  exact containsSub_of_parts (A ++ X) Y (by simp)

theorem containsSub_false_left {A B pat : List Char}
    (h : containsSub (A ++ B) pat = false) : containsSub A pat = false := by
  rw [← Bool.not_eq_true] at h ⊢
  intro hc
  apply h
  obtain ⟨X, Y, rfl⟩ := containsSub_iff.mp hc
  exact containsSub_of_parts X (Y ++ B) (by simp)

theorem containsSub_false_extend {s pat r : List Char}
    (h : containsSub s pat = false) : containsSub s (pat ++ r) = false := by
  rw [← Bool.not_eq_true] at h ⊢
  intro hc
  apply h
  obtain ⟨X, Y, rfl⟩ := containsSub_iff.mp hc
  exact containsSub_of_parts X (r ++ Y) (by simp)

theorem containsSub_pair_false_of_not_mem {x : Char} (y : Char) {s : List Char} (h : x ∉ s) :
    containsSub s [x, y] = false := by
  rw [← Bool.not_eq_true]
  intro hc
  apply h
  obtain ⟨X, Y, rfl⟩ := containsSub_iff.mp hc
  simp

theorem replaceFuel_irrel (pat rep : List Char) :
    ∀ n m (s : List Char), s.length ≤ n → s.length ≤ m →
      replaceFuel pat rep n s = replaceFuel pat rep m s := by
  intro n
  induction n with
  | zero =>
    intro m s h1 _
    have hs : s = [] := List.eq_nil_of_length_eq_zero (Nat.le_zero.mp h1)
    subst hs
    cases m <;> rfl
  | succ n ih =>
    intro m s h1 h2
    cases s with
    | nil => cases m <;> rfl
    | cons c t =>
      cases m with
      | zero => simp at h2
      | succ m =>
        show (if leadsWith pat (c :: t) && !pat.isEmpty then
            rep ++ replaceFuel pat rep n (t.drop (pat.length - 1))
          else c :: replaceFuel pat rep n t) =
          (if leadsWith pat (c :: t) && !pat.isEmpty then
            rep ++ replaceFuel pat rep m (t.drop (pat.length - 1))
          else c :: replaceFuel pat rep m t)
        have hlen : t.length ≤ n := by simpa using h1
        have hlen' : t.length ≤ m := by simpa using h2
        have hdrop : (t.drop (pat.length - 1)).length ≤ t.length := by
          rw [List.length_drop]
          omega
        split
        · rw [ih m _ (le_trans hdrop hlen) (le_trans hdrop hlen')]
        · rw [ih m t hlen hlen']

theorem replaceList_nil (pat rep : List Char) : replaceList pat rep [] = [] := rfl

theorem replaceList_cons (pat rep : List Char) (c : Char) (t : List Char) :
    replaceList pat rep (c :: t) =
      if leadsWith pat (c :: t) && !pat.isEmpty then
        rep ++ replaceList pat rep (t.drop (pat.length - 1))
      else c :: replaceList pat rep t := by
  show (if leadsWith pat (c :: t) && !pat.isEmpty then
      rep ++ replaceFuel pat rep t.length (t.drop (pat.length - 1))
    else c :: replaceFuel pat rep t.length t) = _
  rw [replaceFuel_irrel pat rep t.length (t.drop (pat.length - 1)).length
    (t.drop (pat.length - 1)) (by rw [List.length_drop]; omega) (le_refl _)]
  rfl

theorem replaceList_of_not_contains {pat s : List Char} (rep : List Char)
    (h : containsSub s pat = false) : replaceList pat rep s = s := by
  induction s with
  | nil => rfl
  | cons c t ih =>
    rw [containsSub, Bool.or_eq_false_iff] at h
    rw [replaceList_cons, if_neg (by simp [h.1]), ih h.2]

theorem replaceList_head_match {pat : List Char} (rep B : List Char) (hpat : pat ≠ []) :
    replaceList pat rep (pat ++ B) = rep ++ replaceList pat rep B := by
  cases pat with
  | nil => exact absurd rfl hpat
  | cons a pa =>
    rw [List.cons_append, replaceList_cons,
      if_pos (by rw [← List.cons_append, leadsWith_append_self]; rfl)]
    congr 1
    have : (a :: pa).length - 1 = pa.length := by simp
    rw [this, List.drop_left]

theorem replaceList_pair {x y : Char} (rep A B : List Char) (hxy : x ≠ y)
    (hA : containsSub A [x, y] = false) (hB : containsSub B [x, y] = false) :
    replaceList [x, y] rep (A ++ x :: y :: B) = A ++ rep ++ B := by
  induction A with
  | nil =>
    rw [List.nil_append]
    have hsplit : x :: y :: B = [x, y] ++ B := rfl
    rw [hsplit, replaceList_head_match rep B (by simp),
      replaceList_of_not_contains rep hB]
    simp
  | cons a A ih =>
    have hcond : leadsWith [x, y] (a :: (A ++ x :: y :: B)) = false := by
      cases hlw : leadsWith [x, y] (a :: (A ++ x :: y :: B)) with
      | false => rfl
      | true =>
        obtain ⟨t, ht⟩ := leadsWith_iff.mp hlw
        cases A with
        | nil =>
          rw [List.nil_append] at ht
          injection ht with h1 ht2
          injection ht2 with h2 _
          exact absurd h2 hxy
        | cons b A' =>
          rw [List.cons_append] at ht
          injection ht with h1 ht2
          injection ht2 with h2 _
          subst h1
          subst h2
          rw [containsSub] at hA
          simp [leadsWith] at hA
    rw [List.cons_append, replaceList_cons, if_neg (by simp [hcond]),
      ih (containsSub_false_cons hA)]
    simp

theorem replaceList_marker (ch : Char) (rep A B : List Char)
    (hopen : containsSub (A ++ ch :: B) ['<', '|'] = false) :
    replaceList ['<', '|', ch, '|', '>'] rep (A ++ '<' :: '|' :: ch :: '|' :: '>' :: B) =
      A ++ rep ++ B := by
  induction A with
  | nil =>
    rw [List.nil_append]
    have hsplit : '<' :: '|' :: ch :: '|' :: '>' :: B = ['<', '|', ch, '|', '>'] ++ B := rfl
    have hB : containsSub B ['<', '|'] = false :=
      containsSub_false_cons (by simpa using hopen)
    have hBM : containsSub B (['<', '|'] ++ [ch, '|', '>']) = false :=
      containsSub_false_extend hB
    rw [hsplit, replaceList_head_match rep B (by simp),
      replaceList_of_not_contains rep (by simpa using hBM)]
    simp
  | cons a A ih =>
    have hcond : leadsWith ['<', '|', ch, '|', '>']
        (a :: (A ++ '<' :: '|' :: ch :: '|' :: '>' :: B)) = false := by
      cases hlw : leadsWith ['<', '|', ch, '|', '>']
          (a :: (A ++ '<' :: '|' :: ch :: '|' :: '>' :: B)) with
      | false => rfl
      | true =>
        obtain ⟨t, ht⟩ := leadsWith_iff.mp hlw
        cases A with
        | nil =>
          rw [List.nil_append] at ht
          injection ht with h1 ht2
          injection ht2 with h2 _
          exact absurd h2 (by decide)
        | cons b A' =>
          rw [List.cons_append] at ht
          injection ht with h1 ht2
          injection ht2 with h2 _
          subst h1
          subst h2
          rw [List.cons_append, List.cons_append, containsSub] at hopen
          simp [leadsWith] at hopen
    rw [List.cons_append, replaceList_cons, if_neg (by simp [hcond]),
      ih (containsSub_false_cons (by simpa using hopen))]
    simp

/-! Convenience lemmas for boundary decompositions. -/

theorem utf8Len_concat (A : List Char) (c : Char) :
    utf8Len (A ++ [c]) = utf8Len A + c.utf8Size := by
  simp [utf8Len_append, utf8Len]

theorem isBoundaryB_of_append (A X : List Char) : isBoundaryB (A ++ X) (utf8Len A) = true := by
  have := isBoundaryB_utf8Len_take (A ++ X) A.length
  rwa [List.take_left] at this

theorem isBoundaryB_after (A₁ : List Char) (c : Char) (A₂ : List Char) :
    isBoundaryB (A₁ ++ c :: A₂) (utf8Len A₁ + c.utf8Size) = true := by
  have h1 : A₁ ++ c :: A₂ = (A₁ ++ [c]) ++ A₂ := by simp
  rw [h1, ← utf8Len_concat]
  exact isBoundaryB_of_append _ _

theorem isBoundaryB_utf8Len (s : List Char) : isBoundaryB s (utf8Len s) = true := by
  have := isBoundaryB_utf8Len_take s s.length
  rwa [List.take_length] at this

theorem boundary_decomp {s : List Char} {b : Nat} (h : isBoundaryB s b = true) :
    ∃ A B, s = A ++ B ∧ utf8Len A = b ∧ byteTake s b = A ∧ byteDrop s b = B := by
  obtain ⟨k, _, rfl⟩ := exists_take_of_isBoundaryB h
  exact ⟨s.take k, s.drop k, (List.take_append_drop k s).symm, rfl,
    byteTake_utf8Len_take s k, byteDrop_utf8Len_take s k⟩

theorem byteDrop_ne_nil {s : List Char} {b : Nat} (hb : isBoundaryB s b = true)
    (hlt : b < utf8Len s) : byteDrop s b ≠ [] := by
  obtain ⟨k, _, rfl⟩ := exists_take_of_isBoundaryB hb
  rw [byteDrop_utf8Len_take]
  intro hnil
  have heq : s.take k = s := by
    conv_rhs => rw [← List.take_append_drop k s]
    rw [hnil, List.append_nil]
  rw [heq] at hlt
  omega

theorem slice_ne_nil {s : List Char} {a b : Nat} (ha : isBoundaryB s a = true)
    (hb : isBoundaryB s b = true) (hab : a < b) :
    byteDrop (byteTake s b) a ≠ [] := by
  obtain ⟨k₁, _, rfl⟩ := exists_take_of_isBoundaryB ha
  obtain ⟨k₂, hk₂, rfl⟩ := exists_take_of_isBoundaryB hb
  rw [byteTake_utf8Len_take]
  have hk : k₁ < k₂ := by
    by_contra hcon
    push_neg at hcon
    exact absurd (utf8Len_take_mono s hcon) (by omega)
  have htake : (s.take k₂).take k₁ = s.take k₁ := by
    rw [List.take_take, Nat.min_eq_left (le_of_lt hk)]
  rw [← htake, byteDrop_utf8Len_take]
  intro hnil
  have hlen : (s.take k₂).length = k₂ := by
    rw [List.length_take]
    omega
  have := List.drop_eq_nil_iff.mp hnil
  omega

/-! Claim theorems. -/

/-- C3: evaluation of `moveDown` at the failing input `"ab\ncd"` with the cursor
at offset 2 (end of the first line).  The clamped target column
`min 2 2 = 2` equals the second line's full character count, so per the claim
the cursor should land at that line's end offset (5, end of content); the code
instead leaves the loop's default `next_line_start` and lands at offset 3, a
smaller offset within the target line. -/
theorem c3_moveDown_full_column_lands_at_line_start :
    moveDown ['a', 'b', '\n', 'c', 'd'] 2 = 3 ∧
    moveDown ['a', 'b', '\n', 'c', 'd'] 2 ≠ utf8Len ['a', 'b', '\n', 'c', 'd'] := by
  decide

/-- C5: for every content and character-boundary cursor below the content
length, `MoveRight` then `MoveLeft` returns to the original offset, and at the
buffer boundaries the corresponding move is a no-op (`MoveRight` at or past the
end, `MoveLeft` at offset 0). -/
theorem c5_moveRight_moveLeft_inverse (content : List Char) (cur : Nat)
    (hb : isBoundaryB content cur = true) (hlt : cur < utf8Len content) :
    moveLeft content (moveRight content cur) = cur ∧
    (∀ c, utf8Len content ≤ c → moveRight content c = c) ∧
    moveLeft content 0 = 0 := by
  refine ⟨?_, ?_, ?_⟩
  · obtain ⟨A, B, hsplit, hlenA, htake, hdrop⟩ := boundary_decomp hb
    have hBne : B ≠ [] := by
      rw [← hdrop]
      exact byteDrop_ne_nil hb hlt
    cases B with
    | nil => exact absurd rfl hBne
    | cons ch B' =>
      have hpos := ch.utf8Size_pos
      have hmr : moveRight content cur = cur + ch.utf8Size := by
        simp only [moveRight]
        rw [if_pos hlt, hdrop]
      rw [hmr]
      simp only [moveLeft]
      rw [if_pos (by omega)]
      have hsplit2 : content = (A ++ [ch]) ++ B' := by
        rw [hsplit]
        simp
      have hlen2 : cur + ch.utf8Size = utf8Len (A ++ [ch]) := by
        rw [utf8Len_concat]
        omega
      rw [hlen2, hsplit2, byteTake_append_len]
      rw [show charIndices (A ++ [ch]) = charIndicesAux 0 (A ++ [ch]) from rfl,
        charIndicesAux_getLast_concat]
      simpa using hlenA
  · intro c hc
    simp only [moveRight]
    rw [if_neg (by omega)]
  · simp [moveLeft]

/-- C5 witness: the general theorem applied at the concrete content `"aéb"`
(with a multi-byte character) and cursor offset 1. -/
theorem c5_witness :
    moveLeft ['a', 'é', 'b'] (moveRight ['a', 'é', 'b'] 1) = 1 ∧
    (∀ c, utf8Len ['a', 'é', 'b'] ≤ c → moveRight ['a', 'é', 'b'] c = c) ∧
    moveLeft ['a', 'é', 'b'] 0 = 0 :=
  c5_moveRight_moveLeft_inverse ['a', 'é', 'b'] 1 (by decide) (by decide)

/-- C2 counterexample: on the Idle state (empty selection, equal recorded
original boundaries) with content `"abc"` and cursor 0, `ReduceSelection` does
not leave content and cursor unchanged — it rewrites the content (inserting the
empty marker pair) and moves the cursor. -/
theorem c2_counterexample :
    ¬ ((reduceSelection ⟨Editor.new, ['a', 'b', 'c'], 0⟩).content = ['a', 'b', 'c'] ∧
       (reduceSelection ⟨Editor.new, ['a', 'b', 'c'], 0⟩).cursor = 0) := by
  decide

/-- C2 (amended): invoked on an Idle state whose recorded original boundaries
are both `k` (a character boundary of the marker-free content), `ReduceSelection`
does not no-op: it inserts the empty marker pair `<||>` at byte offset `k`,
sets the cursor to `k + 2`, and leaves the selection empty. -/
theorem c2_reduce_idle_inserts_empty_marker (st : EditorView) (k : Nat)
    (_hsel : st.ed.selection = [])
    (hos : st.ed.original_selection_start = k)
    (hoe : st.ed.original_selection_end = k)
    (hb : isBoundaryB st.content k = true)
    (hopen : containsSub st.content ['<', '|'] = false)
    (hclose : containsSub st.content ['|', '>'] = false) :
    (reduceSelection st).content =
      byteTake st.content k ++ '<' :: '|' :: '|' :: '>' :: byteDrop st.content k ∧
    (reduceSelection st).cursor = k + 2 ∧
    (reduceSelection st).ed.selection = [] ∧
    (reduceSelection st).content ≠ st.content := by
  obtain ⟨A, B, hsplit, hlenA, htake, hdrop⟩ := boundary_decomp hb
  have hstrip : stripMarkers st.content = st.content := by
    rw [stripMarkers, replaceList_of_not_contains ([] : List Char) hopen,
      replaceList_of_not_contains ([] : List Char) hclose]
  have hmid : byteDrop (byteTake st.content k) k = [] := by
    rw [htake, ← hlenA, byteDrop_utf8Len_self]
  have hred : reduceSelection st =
      ⟨st.ed.update_selection st.content k k,
       byteTake st.content k ++ '<' :: '|' :: '|' :: '>' :: byteDrop st.content k,
       k + 2⟩ := by
    simp only [reduceSelection, hstrip, hos, hoe, hmid]
    simp
  rw [hred]
  refine ⟨rfl, rfl, ?_, ?_⟩
  · simp [Editor.update_selection]
  · rw [htake, hdrop]
    intro heq
    have hlen := congrArg List.length heq
    rw [hsplit] at hlen
    simp at hlen
    omega

/-- C2 witness for the amended theorem: the fresh editor on content `"abc"`
with cursor 0 gains the four marker characters at offset 0 and the cursor
moves to 2. -/
theorem c2_witness :
    (reduceSelection ⟨Editor.new, ['a', 'b', 'c'], 0⟩).content =
      byteTake ['a', 'b', 'c'] 0 ++ '<' :: '|' :: '|' :: '>' :: byteDrop ['a', 'b', 'c'] 0 ∧
    (reduceSelection ⟨Editor.new, ['a', 'b', 'c'], 0⟩).cursor = 0 + 2 ∧
    (reduceSelection ⟨Editor.new, ['a', 'b', 'c'], 0⟩).ed.selection = [] ∧
    (reduceSelection ⟨Editor.new, ['a', 'b', 'c'], 0⟩).content ≠ ['a', 'b', 'c'] :=
  c2_reduce_idle_inserts_empty_marker ⟨Editor.new, ['a', 'b', 'c'], 0⟩ 0
    rfl rfl rfl (by decide) (by decide) (by decide)

/-- C1: on content containing neither `<|` nor `|>`, with the cursor on a
character boundary strictly below the content length and no active selection,
`ToggleSelection` followed by `ToggleSelection` restores the buffer content
byte-for-byte. -/
theorem c1_toggle_toggle_restores_content (ed : Editor) (content : List Char) (cur : Nat)
    (hsel : ed.selection = [])
    (hb : isBoundaryB content cur = true)
    (hlt : cur < utf8Len content)
    (hopen : containsSub content ['<', '|'] = false)
    (_hclose : containsSub content ['|', '>'] = false) :
    (toggleSelection (toggleSelection ⟨ed, content, cur⟩)).content = content := by
  obtain ⟨A, B, hsplit, hlenA, htake, hdrop⟩ := boundary_decomp hb
  have hBne : B ≠ [] := by
    rw [← hdrop]
    exact byteDrop_ne_nil hb hlt
  cases B with
  | nil => exact absurd rfl hBne
  | cons ch B' =>
    have hpos := ch.utf8Size_pos
    have hsplit2 : content = (A ++ [ch]) ++ B' := by
      rw [hsplit]
      simp
    have hlen2 : utf8Len (A ++ [ch]) = cur + ch.utf8Size := by
      rw [utf8Len_concat]
      omega
    have htake2 : byteTake content (cur + ch.utf8Size) = A ++ [ch] := by
      rw [hsplit2, ← hlen2, byteTake_append_len]
    have hdrop2 : byteDrop content (cur + ch.utf8Size) = B' := by
      rw [hsplit2, ← hlen2, byteDrop_append_len]
    have hselSlice : byteDrop (byteTake content (cur + ch.utf8Size)) cur = [ch] := by
      rw [htake2, ← hlenA, byteDrop_append_len]
    have hne : ¬ (cur = cur + ch.utf8Size) := by omega
    have hst1 : toggleSelection ⟨ed, content, cur⟩ =
        ⟨⟨[ch], cur, cur + ch.utf8Size, cur, cur + ch.utf8Size⟩,
         A ++ '<' :: '|' :: ch :: '|' :: '>' :: B',
         cur + 2⟩ := by
      simp [toggleSelection, Editor.update_selection, hsel, hlt, hdrop, hne, hselSlice,
        htake, hdrop2]
    rw [hst1]
    have hopen' : containsSub (A ++ ch :: B') ['<', '|'] = false := by
      rw [← hsplit]
      exact hopen
    simp only [toggleSelection]
    simp only [List.cons_ne_nil, if_false, reduceIte]
    simp only [List.singleton_append, List.cons_append, List.nil_append]
    rw [replaceList_marker ch [ch] A B' hopen', hsplit]
    simp

/-- C1 witness: toggling twice on content `"abc"` with cursor 1 from the fresh
editor restores `"abc"`. -/
theorem c1_witness :
    (toggleSelection (toggleSelection ⟨Editor.new, ['a', 'b', 'c'], 1⟩)).content =
      ['a', 'b', 'c'] :=
  c1_toggle_toggle_restores_content Editor.new ['a', 'b', 'c'] 1 rfl
    (by decide) (by decide) (by decide) (by decide)

/-! Lemmas for the `capitalize` claim. -/

theorem splitPieces_ne_nil (p : Char → Bool) (s : List Char) : splitPieces p s ≠ [] := by
  induction s with
  | nil => simp [splitPieces]
  | cons c t ih =>
    rw [splitPieces]
    split
    · simp
    · cases hsp : splitPieces p t with
      | nil => exact absurd hsp ih
      | cons w ws => simp

theorem splitPieces_eq (p : Char → Bool) (s : List Char) :
    splitPieces p s = s.takeWhile (fun c => !p c) ::
      (match s.dropWhile (fun c => !p c) with
        | [] => []
        | _ :: rest => splitPieces p rest) := by
  induction s with
  | nil => rfl
  | cons c s ih =>
    rw [splitPieces]
    by_cases hc : p c
    · rw [if_pos hc]
      have ht : (c :: s).takeWhile (fun c => !p c) = [] := by
        simp [List.takeWhile_cons, hc]
      have hd : (c :: s).dropWhile (fun c => !p c) = c :: s := by
        simp [List.dropWhile_cons, hc]
      rw [ht, hd]
    · rw [if_neg hc, ih]
      have ht : (c :: s).takeWhile (fun c => !p c) = c :: s.takeWhile (fun c => !p c) := by
        simp [List.takeWhile_cons, hc]
      have hd : (c :: s).dropWhile (fun c => !p c) = s.dropWhile (fun c => !p c) := by
        simp [List.dropWhile_cons, hc]
      rw [ht, hd, List.modifyHead_cons]

theorem dropWhile_length_le (q : Char → Bool) (l : List Char) :
    (l.dropWhile q).length ≤ l.length := by
  induction l with
  | nil => simp
  | cons a t ih =>
    rw [List.dropWhile_cons]
    split
    · exact le_trans ih (by simp)
    · simp

theorem dropWhile_head_false {q : Char → Bool} {l : List Char} {c : Char} {rest : List Char}
    (h : l.dropWhile q = c :: rest) : q c = false := by
  induction l with
  | nil => simp at h
  | cons a t ih =>
    rw [List.dropWhile_cons] at h
    by_cases hq : q a = true
    · rw [if_pos hq] at h
      exact ih h
    · rw [if_neg hq] at h
      injection h with h1 _
      subst h1
      simpa using hq

theorem splitWsFuel_irrel :
    ∀ n m (s : List Char), s.length ≤ n → s.length ≤ m →
      splitWsFuel n s = splitWsFuel m s := by
  intro n
  induction n with
  | zero =>
    intro m s h1 _
    have hs : s = [] := List.eq_nil_of_length_eq_zero (Nat.le_zero.mp h1)
    subst hs
    cases m <;> rfl
  | succ n ih =>
    intro m s h1 h2
    cases s with
    | nil => cases m <;> rfl
    | cons c t =>
      cases m with
      | zero => simp at h2
      | succ m =>
        show (if rustIsWhitespace c then splitWsFuel n t
            else (c :: t.takeWhile (fun x => !rustIsWhitespace x)) ::
              splitWsFuel n (t.dropWhile (fun x => !rustIsWhitespace x))) =
          (if rustIsWhitespace c then splitWsFuel m t
            else (c :: t.takeWhile (fun x => !rustIsWhitespace x)) ::
              splitWsFuel m (t.dropWhile (fun x => !rustIsWhitespace x)))
        have hlen : t.length ≤ n := by simpa using h1
        have hlen' : t.length ≤ m := by simpa using h2
        have hdw : (t.dropWhile (fun x => !rustIsWhitespace x)).length ≤ t.length :=
          dropWhile_length_le _ t
        split
        · rw [ih m t hlen hlen']
        · rw [ih m _ (le_trans hdw hlen) (le_trans hdw hlen')]

theorem splitWhitespace_cons (c : Char) (s : List Char) :
    splitWhitespace (c :: s) =
      if rustIsWhitespace c then splitWhitespace s
      else (c :: s.takeWhile (fun x => !rustIsWhitespace x)) ::
        splitWhitespace (s.dropWhile (fun x => !rustIsWhitespace x)) := by
  show (if rustIsWhitespace c then splitWsFuel s.length s
      else (c :: s.takeWhile (fun x => !rustIsWhitespace x)) ::
        splitWsFuel s.length (s.dropWhile (fun x => !rustIsWhitespace x))) = _
  split
  · rfl
  · rw [splitWsFuel_irrel s.length (s.dropWhile (fun x => !rustIsWhitespace x)).length
      (s.dropWhile (fun x => !rustIsWhitespace x)) (dropWhile_length_le _ s) (le_refl _)]
    rfl

theorem splitWhitespace_eq_pieces (s : List Char) :
    splitWhitespace s = (splitPieces rustIsWhitespace s).filter (fun w => !w.isEmpty) := by
  generalize hn : s.length = n
  induction n using Nat.strong_induction_on generalizing s with
  | _ n ih =>
    cases s with
    | nil => rfl
    | cons c s =>
      rw [splitWhitespace_cons, splitPieces]
      by_cases hc : rustIsWhitespace c
      · rw [if_pos hc, if_pos hc, List.filter_cons]
        have : (!([] : List Char).isEmpty) = false := rfl
        rw [this]
        simp only [if_false, Bool.false_eq_true, reduceIte]
        exact ih s.length (by simp at hn; omega) s rfl
      · rw [if_neg hc, if_neg hc, splitPieces_eq rustIsWhitespace s, List.modifyHead_cons,
          List.filter_cons]
        have : (!(c :: s.takeWhile (fun c => !rustIsWhitespace c)).isEmpty) = true := rfl
        rw [this]
        simp only [if_true, reduceIte]
        congr 1
        cases hd : s.dropWhile (fun x => !rustIsWhitespace x) with
        | nil => rfl
        | cons d rest =>
          have hdws : rustIsWhitespace d = true := by
            have := dropWhile_head_false hd
            simpa using this
          show splitWhitespace (d :: rest) =
            List.filter (fun w => !w.isEmpty) (splitPieces rustIsWhitespace rest)
          rw [splitWhitespace_cons, if_pos hdws]
          have hlt : rest.length < n := by
            have h1 : (s.dropWhile (fun x => !rustIsWhitespace x)).length ≤ s.length :=
              dropWhile_length_le _ s
            rw [hd] at h1
            simp at h1 hn
            omega
          exact ih rest.length hlt rest rfl

theorem capWord_eq_upperFirst (w : List Char) : capWord w = upperFirst w := by
  cases w <;> rfl

/-- C9: `transform(content, Capitalized)` splits the content on runs of
whitespace (formulated independently: the non-empty pieces obtained by cutting
at every whitespace character), uppercases the first character of each word
leaving the remainder unchanged, and rejoins the words with single spaces; in
particular it maps `"hello world"` to `"Hello World"`, `""` to `""` and `"a"`
to `"A"`. -/
theorem c9_capitalize_spec :
    (∀ text, transform text Choice.Cap =
      List.intercalate [' ']
        (((splitPieces rustIsWhitespace text).filter (fun w => !w.isEmpty)).map upperFirst)) ∧
    transform ['h', 'e', 'l', 'l', 'o', ' ', 'w', 'o', 'r', 'l', 'd'] Choice.Cap =
      ['H', 'e', 'l', 'l', 'o', ' ', 'W', 'o', 'r', 'l', 'd'] ∧
    transform [] Choice.Cap = [] ∧
    transform ['a'] Choice.Cap = ['A'] := by
  refine ⟨?_, by decide, by decide, by decide⟩
  intro text
  show capitalize text = _
  rw [capitalize, splitWhitespace_eq_pieces,
    List.map_congr_left fun w _ => capWord_eq_upperFirst w]

/-! Lemmas for the ExpandSelection claims. -/

theorem update_selection_start (ed : Editor) (content : List Char) (s e : Nat) :
    (ed.update_selection content s e).selection_start = s := by
  rw [Editor.update_selection]
  split <;> rfl

theorem update_selection_end (ed : Editor) (content : List Char) (s e : Nat) :
    (ed.update_selection content s e).selection_end = e := by
  rw [Editor.update_selection]
  split <;> rfl

theorem update_selection_orig_start (ed : Editor) (content : List Char) (s e : Nat) :
    (ed.update_selection content s e).original_selection_start =
      ed.original_selection_start := by
  rw [Editor.update_selection]
  split <;> rfl

theorem update_selection_orig_end (ed : Editor) (content : List Char) (s e : Nat) :
    (ed.update_selection content s e).original_selection_end =
      ed.original_selection_end := by
  rw [Editor.update_selection]
  split <;> rfl

theorem update_selection_selection (ed : Editor) (content : List Char) (s e : Nat) :
    (ed.update_selection content s e).selection =
      if s = e then [] else byteDrop (byteTake content e) s := by
  rw [Editor.update_selection]
  split <;> simp_all

theorem slice_self_nil {s : List Char} {b : Nat} (hb : isBoundaryB s b = true) :
    byteDrop (byteTake s b) b = [] := by
  obtain ⟨A, B, _, hlen, htake, _⟩ := boundary_decomp hb
  rw [htake, ← hlen, byteDrop_utf8Len_self]

theorem mem_charIndicesAux_lt {b p : Nat} {c : Char} {s : List Char}
    (h : (p, c) ∈ charIndicesAux b s) : p < b + utf8Len s := by
  obtain ⟨A₁, A₂, rfl, rfl⟩ := mem_charIndicesAux_decomp h
  have := c.utf8Size_pos
  rw [utf8Len_append]
  simp [utf8Len]
  omega

theorem space_utf8Size : (' ' : Char).utf8Size = 1 := rfl

/-- Spec characterisation of the left bound computed by the Ctrl+p callback:
the result is at most `selStart`, is a character boundary, sits either at 0 or
just after a space, and no space occurs between it and `selStart`. -/
theorem expandL_spec (C : List Char) (selStart L : Nat)
    (hb : isBoundaryB C selStart = true)
    (hLdef : L = (if selStart > 0 then
        match rfindChar (byteTake C selStart) ' ' with
        | some pos => pos + 1
        | none => 0
      else 0)) :
    L ≤ selStart ∧ isBoundaryB C L = true ∧
      (L = 0 ∨ (byteDrop C (L - 1)).head? = some ' ') ∧
      ∀ p c, (p, c) ∈ charIndices C → L ≤ p → p < selStart → c ≠ ' ' := by
  obtain ⟨A, B, hsplit, hlenA, htake, hdrop⟩ := boundary_decomp hb
  by_cases hpos : selStart > 0
  · rw [if_pos hpos] at hLdef
    cases hrf : rfindChar (byteTake C selStart) ' ' with
    | none =>
      simp only [hrf] at hLdef
      subst hLdef
      refine ⟨by omega, isBoundaryB_zero C, Or.inl rfl, ?_⟩
      intro p c hmem _ hlt hc
      subst hc
      rw [htake] at hrf
      have hnosp : (' ' : Char) ∉ A := rfindChar_none hrf
      rw [show charIndices C = charIndicesAux 0 C from rfl, hsplit,
        charIndicesAux_append] at hmem
      rcases List.mem_append.mp hmem with hm | hm
      · exact hnosp (mem_charIndicesAux_mem hm)
      · have := le_of_mem_charIndicesAux hm
        omega
    | some p₀ =>
      simp only [hrf] at hLdef
      subst hLdef
      rw [htake] at hrf
      obtain ⟨W₁, W₂, hAeq, hp₀, hW₂⟩ := rfindChar_some hrf
      have hL1 : p₀ + 1 = utf8Len (W₁ ++ [' ']) := by
        rw [utf8Len_concat, space_utf8Size]
        omega
      have hC2 : C = (W₁ ++ [' ']) ++ (W₂ ++ B) := by
        rw [hsplit, hAeq]
        simp
      have hssA : selStart = utf8Len W₁ + 1 + utf8Len W₂ := by
        rw [← hlenA, hAeq, utf8Len_append]
        simp [utf8Len, space_utf8Size]
        omega
      have h1 : p₀ + 1 ≤ selStart := by omega
      have h2 : isBoundaryB C (p₀ + 1) = true := by
        rw [hL1, hC2]
        exact isBoundaryB_of_append _ _
      have h3 : (byteDrop C (p₀ + 1 - 1)).head? = some ' ' := by
        have hC3 : C = W₁ ++ ' ' :: (W₂ ++ B) := by
          rw [hsplit, hAeq]
          simp
        rw [show p₀ + 1 - 1 = p₀ from rfl, hp₀, hC3, byteDrop_append_len]
        rfl
      have h4 : ∀ p c, (p, c) ∈ charIndices C → p₀ + 1 ≤ p → p < selStart → c ≠ ' ' := by
        intro p c hmem hLp hpss hc
        subst hc
        rw [show charIndices C = charIndicesAux 0 C from rfl, hC2,
          charIndicesAux_append] at hmem
        rcases List.mem_append.mp hmem with hm | hm
        · have := mem_charIndicesAux_lt hm
          rw [← hL1] at this
          omega
        · rw [charIndicesAux_append] at hm
          rcases List.mem_append.mp hm with hm2 | hm2
          · exact hW₂ ' ' (mem_charIndicesAux_mem hm2) rfl
          · have := le_of_mem_charIndicesAux hm2
            rw [← hL1] at this
            omega
      exact ⟨h1, h2, Or.inr h3, h4⟩
  · rw [if_neg hpos] at hLdef
    subst hLdef
    refine ⟨by omega, isBoundaryB_zero C, Or.inl rfl, ?_⟩
    intro p c _ _ hlt
    omega

/-- Spec characterisation of the right bound computed by the Ctrl+p callback:
the result is at least `selEnd`, is a character boundary within the content,
sits either at end of content or on a space, and no space occurs between
`selEnd` and it. -/
theorem expandR_spec (C : List Char) (selEnd R : Nat)
    (hb : isBoundaryB C selEnd = true)
    (hRdef : R = (match findChar (byteDrop C selEnd) ' ' with
        | some pos => selEnd + pos
        | none => utf8Len C)) :
    selEnd ≤ R ∧ isBoundaryB C R = true ∧ R ≤ utf8Len C ∧
      (R = utf8Len C ∨ (byteDrop C R).head? = some ' ') ∧
      ∀ p c, (p, c) ∈ charIndices C → selEnd ≤ p → p < R → c ≠ ' ' := by
  obtain ⟨A, B, hsplit, hlenA, htake, hdrop⟩ := boundary_decomp hb
  cases hf : findChar (byteDrop C selEnd) ' ' with
  | none =>
    simp only [hf] at hRdef
    subst hRdef
    refine ⟨isBoundaryB_le hb, isBoundaryB_utf8Len C, le_refl _, Or.inl rfl, ?_⟩
    intro p c hmem hsep hplt hc
    subst hc
    rw [hdrop] at hf
    have hnosp := findChar_none hf
    rw [show charIndices C = charIndicesAux 0 C from rfl, hsplit,
      charIndicesAux_append] at hmem
    rcases List.mem_append.mp hmem with hm | hm
    · have := mem_charIndicesAux_lt hm
      omega
    · exact hnosp ' ' (mem_charIndicesAux_mem hm) rfl
  | some q =>
    simp only [hf] at hRdef
    subst hRdef
    rw [hdrop] at hf
    obtain ⟨V₁, V₂, hBeq, hq, hV₁⟩ := findChar_some hf
    have hR1 : selEnd + q = utf8Len (A ++ V₁) := by
      rw [utf8Len_append]
      omega
    have hC2 : C = (A ++ V₁) ++ ' ' :: V₂ := by
      rw [hsplit, hBeq]
      simp
    have hlenC : utf8Len C = selEnd + q + 1 + utf8Len V₂ := by
      rw [hC2, utf8Len_append, ← hR1]
      simp [utf8Len, space_utf8Size]
      omega
    have h1 : selEnd ≤ selEnd + q := by omega
    have h2 : isBoundaryB C (selEnd + q) = true := by
      rw [hR1, hC2]
      exact isBoundaryB_of_append _ _
    have h2b : selEnd + q ≤ utf8Len C := by omega
    have h3 : (byteDrop C (selEnd + q)).head? = some ' ' := by
      rw [hR1, hC2, byteDrop_append_len]
      rfl
    have h4 : ∀ p c, (p, c) ∈ charIndices C → selEnd ≤ p → p < selEnd + q → c ≠ ' ' := by
      intro p c hmem hsep hplt hc
      subst hc
      have hC3 : C = A ++ (V₁ ++ ' ' :: V₂) := by
        rw [hsplit, hBeq]
      rw [show charIndices C = charIndicesAux 0 C from rfl, hC3,
        charIndicesAux_append] at hmem
      rcases List.mem_append.mp hmem with hm | hm
      · have := mem_charIndicesAux_lt hm
        omega
      · rw [charIndicesAux_append] at hm
        rcases List.mem_append.mp hm with hm2 | hm2
        · exact hV₁ ' ' (mem_charIndicesAux_mem hm2) rfl
        · have := le_of_mem_charIndicesAux hm2
          rw [show (0 + utf8Len A) + utf8Len V₁ = utf8Len (A ++ V₁) by
            rw [utf8Len_append]; omega, ← hR1] at this
          omega
    exact ⟨h1, h2, h2b, Or.inr h3, h4⟩

theorem expandSelection_start_eq (st : EditorView) :
    (expandSelection st).ed.selection_start =
      (if st.ed.selection_start > 0 then
        match rfindChar (byteTake (stripMarkers st.content) st.ed.selection_start) ' ' with
        | some pos => pos + 1
        | none => 0
      else 0) := by
  simp only [expandSelection, update_selection_start]

theorem expandSelection_end_eq (st : EditorView) :
    (expandSelection st).ed.selection_end =
      (match findChar (byteDrop (stripMarkers st.content) st.ed.selection_end) ' ' with
        | some pos => st.ed.selection_end + pos
        | none => utf8Len (stripMarkers st.content)) := by
  simp only [expandSelection, update_selection_end]

theorem expandSelection_orig_start_eq (st : EditorView) :
    (expandSelection st).ed.original_selection_start = st.ed.original_selection_start := by
  simp only [expandSelection, update_selection_orig_start]

theorem expandSelection_orig_end_eq (st : EditorView) :
    (expandSelection st).ed.original_selection_end = st.ed.original_selection_end := by
  simp only [expandSelection, update_selection_orig_end]

theorem expandSelection_cursor_eq (st : EditorView) :
    (expandSelection st).cursor = st.cursor := rfl

theorem expandSelection_selection_eq (st : EditorView) :
    (expandSelection st).ed.selection =
      if (expandSelection st).ed.selection_start = (expandSelection st).ed.selection_end
      then []
      else byteDrop
        (byteTake (stripMarkers st.content) (expandSelection st).ed.selection_end)
        (expandSelection st).ed.selection_start := by
  simp only [expandSelection, update_selection_selection, update_selection_start,
    update_selection_end]

theorem expandSelection_content_eq (st : EditorView) :
    (expandSelection st).content =
      byteTake (stripMarkers st.content) (expandSelection st).ed.selection_start ++
        '<' :: '|' :: ((expandSelection st).ed.selection ++
          '|' :: '>' :: byteDrop (stripMarkers st.content)
            (expandSelection st).ed.selection_end) := by
  simp only [expandSelection, update_selection_start, update_selection_end]

/-- Full characterisation of one `expandSelection` step against the spec's
space-search rule, shared by the ExpandSelection claims. -/
theorem expand_characterization (st : EditorView)
    (hss : isBoundaryB (stripMarkers st.content) st.ed.selection_start = true)
    (hse : isBoundaryB (stripMarkers st.content) st.ed.selection_end = true) :
    (expandSelection st).ed.selection_start ≤ st.ed.selection_start ∧
    st.ed.selection_end ≤ (expandSelection st).ed.selection_end ∧
    isBoundaryB (stripMarkers st.content) (expandSelection st).ed.selection_start = true ∧
    isBoundaryB (stripMarkers st.content) (expandSelection st).ed.selection_end = true ∧
    (expandSelection st).ed.selection_end ≤ utf8Len (stripMarkers st.content) ∧
    ((expandSelection st).ed.selection_start = 0 ∨
      (byteDrop (stripMarkers st.content)
        ((expandSelection st).ed.selection_start - 1)).head? = some ' ') ∧
    (∀ p c, (p, c) ∈ charIndices (stripMarkers st.content) →
      (expandSelection st).ed.selection_start ≤ p → p < st.ed.selection_start → c ≠ ' ') ∧
    ((expandSelection st).ed.selection_end = utf8Len (stripMarkers st.content) ∨
      (byteDrop (stripMarkers st.content)
        (expandSelection st).ed.selection_end).head? = some ' ') ∧
    (∀ p c, (p, c) ∈ charIndices (stripMarkers st.content) →
      st.ed.selection_end ≤ p → p < (expandSelection st).ed.selection_end → c ≠ ' ') ∧
    (expandSelection st).ed.selection =
      byteDrop (byteTake (stripMarkers st.content) (expandSelection st).ed.selection_end)
        (expandSelection st).ed.selection_start := by
  obtain ⟨hL1, hL2, hL3, hL4⟩ :=
    expandL_spec (stripMarkers st.content) st.ed.selection_start
      (expandSelection st).ed.selection_start hss (expandSelection_start_eq st)
  obtain ⟨hR1, hR2, hR3, hR4, hR5⟩ :=
    expandR_spec (stripMarkers st.content) st.ed.selection_end
      (expandSelection st).ed.selection_end hse (expandSelection_end_eq st)
  refine ⟨hL1, hR1, hL2, hR2, hR3, hL3, hL4, hR4, hR5, ?_⟩
  rw [expandSelection_selection_eq st]
  split
  · next heq =>
    rw [heq, slice_self_nil hR2]
  · rfl

/-- C6: ExpandSelection, operating on the marker-stripped content with current
boundaries `selection_start ≤ selection_end`, sets the new left boundary just
after the nearest space strictly before `selection_start` (or 0 if none) and
the new right boundary at the nearest space at or after `selection_end` (or
the content length if none) — the only word-boundary character is the space
character — updates the selection state to these boundaries, and rewrites the
content with the markers around the new selection. -/
theorem c6_expand_space_rule (st : EditorView)
    (hss : isBoundaryB (stripMarkers st.content) st.ed.selection_start = true)
    (hse : isBoundaryB (stripMarkers st.content) st.ed.selection_end = true)
    (_hle : st.ed.selection_start ≤ st.ed.selection_end) :
    ((expandSelection st).ed.selection_start ≤ st.ed.selection_start ∧
    st.ed.selection_end ≤ (expandSelection st).ed.selection_end ∧
    isBoundaryB (stripMarkers st.content) (expandSelection st).ed.selection_start = true ∧
    isBoundaryB (stripMarkers st.content) (expandSelection st).ed.selection_end = true ∧
    (expandSelection st).ed.selection_end ≤ utf8Len (stripMarkers st.content) ∧
    ((expandSelection st).ed.selection_start = 0 ∨
      (byteDrop (stripMarkers st.content)
        ((expandSelection st).ed.selection_start - 1)).head? = some ' ') ∧
    (∀ p c, (p, c) ∈ charIndices (stripMarkers st.content) →
      (expandSelection st).ed.selection_start ≤ p → p < st.ed.selection_start → c ≠ ' ') ∧
    ((expandSelection st).ed.selection_end = utf8Len (stripMarkers st.content) ∨
      (byteDrop (stripMarkers st.content)
        (expandSelection st).ed.selection_end).head? = some ' ') ∧
    (∀ p c, (p, c) ∈ charIndices (stripMarkers st.content) →
      st.ed.selection_end ≤ p → p < (expandSelection st).ed.selection_end → c ≠ ' ') ∧
    (expandSelection st).ed.selection =
      byteDrop (byteTake (stripMarkers st.content) (expandSelection st).ed.selection_end)
        (expandSelection st).ed.selection_start) ∧
    (expandSelection st).content =
      byteTake (stripMarkers st.content) (expandSelection st).ed.selection_start ++
        '<' :: '|' :: ((expandSelection st).ed.selection ++
          '|' :: '>' :: byteDrop (stripMarkers st.content)
            (expandSelection st).ed.selection_end) :=
  ⟨expand_characterization st hss hse, expandSelection_content_eq st⟩

/-- C6 witness: the selection `b` of `"a b c"` (rendered `"a <|b|> c"`) expands
to the word boundaries required by the space rule. -/
theorem c6_witness :
    ((expandSelection ⟨⟨['b'], 2, 3, 2, 3⟩, ['a', ' ', '<', '|', 'b', '|', '>', ' ', 'c'], 4⟩).ed.selection_start ≤
      (⟨⟨['b'], 2, 3, 2, 3⟩, ['a', ' ', '<', '|', 'b', '|', '>', ' ', 'c'], 4⟩ : EditorView).ed.selection_start ∧
    (⟨⟨['b'], 2, 3, 2, 3⟩, ['a', ' ', '<', '|', 'b', '|', '>', ' ', 'c'], 4⟩ : EditorView).ed.selection_end ≤
      (expandSelection ⟨⟨['b'], 2, 3, 2, 3⟩, ['a', ' ', '<', '|', 'b', '|', '>', ' ', 'c'], 4⟩).ed.selection_end ∧
    isBoundaryB (stripMarkers (⟨⟨['b'], 2, 3, 2, 3⟩, ['a', ' ', '<', '|', 'b', '|', '>', ' ', 'c'], 4⟩ : EditorView).content)
      (expandSelection ⟨⟨['b'], 2, 3, 2, 3⟩, ['a', ' ', '<', '|', 'b', '|', '>', ' ', 'c'], 4⟩).ed.selection_start = true ∧
    isBoundaryB (stripMarkers (⟨⟨['b'], 2, 3, 2, 3⟩, ['a', ' ', '<', '|', 'b', '|', '>', ' ', 'c'], 4⟩ : EditorView).content)
      (expandSelection ⟨⟨['b'], 2, 3, 2, 3⟩, ['a', ' ', '<', '|', 'b', '|', '>', ' ', 'c'], 4⟩).ed.selection_end = true ∧
    (expandSelection ⟨⟨['b'], 2, 3, 2, 3⟩, ['a', ' ', '<', '|', 'b', '|', '>', ' ', 'c'], 4⟩).ed.selection_end ≤
      utf8Len (stripMarkers (⟨⟨['b'], 2, 3, 2, 3⟩, ['a', ' ', '<', '|', 'b', '|', '>', ' ', 'c'], 4⟩ : EditorView).content) ∧
    ((expandSelection ⟨⟨['b'], 2, 3, 2, 3⟩, ['a', ' ', '<', '|', 'b', '|', '>', ' ', 'c'], 4⟩).ed.selection_start = 0 ∨
      (byteDrop (stripMarkers (⟨⟨['b'], 2, 3, 2, 3⟩, ['a', ' ', '<', '|', 'b', '|', '>', ' ', 'c'], 4⟩ : EditorView).content)
        ((expandSelection ⟨⟨['b'], 2, 3, 2, 3⟩, ['a', ' ', '<', '|', 'b', '|', '>', ' ', 'c'], 4⟩).ed.selection_start - 1)).head? = some ' ') ∧
    (∀ p c, (p, c) ∈ charIndices (stripMarkers (⟨⟨['b'], 2, 3, 2, 3⟩, ['a', ' ', '<', '|', 'b', '|', '>', ' ', 'c'], 4⟩ : EditorView).content) →
      (expandSelection ⟨⟨['b'], 2, 3, 2, 3⟩, ['a', ' ', '<', '|', 'b', '|', '>', ' ', 'c'], 4⟩).ed.selection_start ≤ p →
      p < (⟨⟨['b'], 2, 3, 2, 3⟩, ['a', ' ', '<', '|', 'b', '|', '>', ' ', 'c'], 4⟩ : EditorView).ed.selection_start → c ≠ ' ') ∧
    ((expandSelection ⟨⟨['b'], 2, 3, 2, 3⟩, ['a', ' ', '<', '|', 'b', '|', '>', ' ', 'c'], 4⟩).ed.selection_end =
      utf8Len (stripMarkers (⟨⟨['b'], 2, 3, 2, 3⟩, ['a', ' ', '<', '|', 'b', '|', '>', ' ', 'c'], 4⟩ : EditorView).content) ∨
      (byteDrop (stripMarkers (⟨⟨['b'], 2, 3, 2, 3⟩, ['a', ' ', '<', '|', 'b', '|', '>', ' ', 'c'], 4⟩ : EditorView).content)
        (expandSelection ⟨⟨['b'], 2, 3, 2, 3⟩, ['a', ' ', '<', '|', 'b', '|', '>', ' ', 'c'], 4⟩).ed.selection_end).head? = some ' ') ∧
    (∀ p c, (p, c) ∈ charIndices (stripMarkers (⟨⟨['b'], 2, 3, 2, 3⟩, ['a', ' ', '<', '|', 'b', '|', '>', ' ', 'c'], 4⟩ : EditorView).content) →
      (⟨⟨['b'], 2, 3, 2, 3⟩, ['a', ' ', '<', '|', 'b', '|', '>', ' ', 'c'], 4⟩ : EditorView).ed.selection_end ≤ p →
      p < (expandSelection ⟨⟨['b'], 2, 3, 2, 3⟩, ['a', ' ', '<', '|', 'b', '|', '>', ' ', 'c'], 4⟩).ed.selection_end → c ≠ ' ') ∧
    (expandSelection ⟨⟨['b'], 2, 3, 2, 3⟩, ['a', ' ', '<', '|', 'b', '|', '>', ' ', 'c'], 4⟩).ed.selection =
      byteDrop (byteTake (stripMarkers (⟨⟨['b'], 2, 3, 2, 3⟩, ['a', ' ', '<', '|', 'b', '|', '>', ' ', 'c'], 4⟩ : EditorView).content)
          (expandSelection ⟨⟨['b'], 2, 3, 2, 3⟩, ['a', ' ', '<', '|', 'b', '|', '>', ' ', 'c'], 4⟩).ed.selection_end)
        (expandSelection ⟨⟨['b'], 2, 3, 2, 3⟩, ['a', ' ', '<', '|', 'b', '|', '>', ' ', 'c'], 4⟩).ed.selection_start) ∧
    (expandSelection ⟨⟨['b'], 2, 3, 2, 3⟩, ['a', ' ', '<', '|', 'b', '|', '>', ' ', 'c'], 4⟩).content =
      byteTake (stripMarkers (⟨⟨['b'], 2, 3, 2, 3⟩, ['a', ' ', '<', '|', 'b', '|', '>', ' ', 'c'], 4⟩ : EditorView).content)
          (expandSelection ⟨⟨['b'], 2, 3, 2, 3⟩, ['a', ' ', '<', '|', 'b', '|', '>', ' ', 'c'], 4⟩).ed.selection_start ++
        '<' :: '|' :: ((expandSelection ⟨⟨['b'], 2, 3, 2, 3⟩, ['a', ' ', '<', '|', 'b', '|', '>', ' ', 'c'], 4⟩).ed.selection ++
          '|' :: '>' :: byteDrop (stripMarkers (⟨⟨['b'], 2, 3, 2, 3⟩, ['a', ' ', '<', '|', 'b', '|', '>', ' ', 'c'], 4⟩ : EditorView).content)
            (expandSelection ⟨⟨['b'], 2, 3, 2, 3⟩, ['a', ' ', '<', '|', 'b', '|', '>', ' ', 'c'], 4⟩).ed.selection_end) :=
  c6_expand_space_rule ⟨⟨['b'], 2, 3, 2, 3⟩, ['a', ' ', '<', '|', 'b', '|', '>', ' ', 'c'], 4⟩
    (by decide) (by decide) (by decide)

/-- C10: invoked with no active selection (selection empty and both boundaries
equal to some offset `k`), ExpandSelection does not no-op: it computes
boundaries around `k` by the same space-search rule, and whenever those
boundaries differ it creates a non-empty selection and rewrites the content
with markers inserted — transitioning the state machine from Idle to
Selected. -/
theorem c10_expand_from_idle (st : EditorView)
    (_hsel : st.ed.selection = [])
    (heq : st.ed.selection_start = st.ed.selection_end)
    (hss : isBoundaryB (stripMarkers st.content) st.ed.selection_start = true) :
    ((expandSelection st).ed.selection_start ≤ st.ed.selection_start ∧
      st.ed.selection_start ≤ (expandSelection st).ed.selection_end) ∧
    ((expandSelection st).ed.selection_start = 0 ∨
      (byteDrop (stripMarkers st.content)
        ((expandSelection st).ed.selection_start - 1)).head? = some ' ') ∧
    (∀ p c, (p, c) ∈ charIndices (stripMarkers st.content) →
      (expandSelection st).ed.selection_start ≤ p → p < st.ed.selection_start → c ≠ ' ') ∧
    ((expandSelection st).ed.selection_end = utf8Len (stripMarkers st.content) ∨
      (byteDrop (stripMarkers st.content)
        (expandSelection st).ed.selection_end).head? = some ' ') ∧
    (∀ p c, (p, c) ∈ charIndices (stripMarkers st.content) →
      st.ed.selection_start ≤ p → p < (expandSelection st).ed.selection_end → c ≠ ' ') ∧
    ((expandSelection st).ed.selection_start ≠ (expandSelection st).ed.selection_end →
      (expandSelection st).ed.selection ≠ [] ∧
      (expandSelection st).content =
        byteTake (stripMarkers st.content) (expandSelection st).ed.selection_start ++
          '<' :: '|' :: ((expandSelection st).ed.selection ++
            '|' :: '>' :: byteDrop (stripMarkers st.content)
              (expandSelection st).ed.selection_end)) := by
  have hse : isBoundaryB (stripMarkers st.content) st.ed.selection_end = true := by
    rw [← heq]
    exact hss
  obtain ⟨h1, h2, hbL, hbR, hRle, h3, h4, h5, h6, h7⟩ := expand_characterization st hss hse
  refine ⟨⟨h1, by omega⟩, h3, h4, h5, ?_, ?_⟩
  · intro p c hm hp1 hp2
    exact h6 p c hm (by omega) hp2
  · intro hne
    refine ⟨?_, expandSelection_content_eq st⟩
    rw [h7]
    exact slice_ne_nil hbL hbR (by omega)

/-- C10 witness: from the fresh Idle editor on `"ab"` the boundaries differ
(0 and 2), a non-empty selection is created and markers are inserted. -/
theorem c10_witness :
    ((expandSelection ⟨⟨[], 0, 0, 0, 0⟩, ['a', 'b'], 0⟩).ed.selection_start ≤
      (⟨⟨[], 0, 0, 0, 0⟩, ['a', 'b'], 0⟩ : EditorView).ed.selection_start ∧
      (⟨⟨[], 0, 0, 0, 0⟩, ['a', 'b'], 0⟩ : EditorView).ed.selection_start ≤
        (expandSelection ⟨⟨[], 0, 0, 0, 0⟩, ['a', 'b'], 0⟩).ed.selection_end) ∧
    ((expandSelection ⟨⟨[], 0, 0, 0, 0⟩, ['a', 'b'], 0⟩).ed.selection_start = 0 ∨
      (byteDrop (stripMarkers (⟨⟨[], 0, 0, 0, 0⟩, ['a', 'b'], 0⟩ : EditorView).content)
        ((expandSelection ⟨⟨[], 0, 0, 0, 0⟩, ['a', 'b'], 0⟩).ed.selection_start - 1)).head? =
        some ' ') ∧
    (∀ p c, (p, c) ∈ charIndices (stripMarkers (⟨⟨[], 0, 0, 0, 0⟩, ['a', 'b'], 0⟩ : EditorView).content) →
      (expandSelection ⟨⟨[], 0, 0, 0, 0⟩, ['a', 'b'], 0⟩).ed.selection_start ≤ p →
      p < (⟨⟨[], 0, 0, 0, 0⟩, ['a', 'b'], 0⟩ : EditorView).ed.selection_start → c ≠ ' ') ∧
    ((expandSelection ⟨⟨[], 0, 0, 0, 0⟩, ['a', 'b'], 0⟩).ed.selection_end =
      utf8Len (stripMarkers (⟨⟨[], 0, 0, 0, 0⟩, ['a', 'b'], 0⟩ : EditorView).content) ∨
      (byteDrop (stripMarkers (⟨⟨[], 0, 0, 0, 0⟩, ['a', 'b'], 0⟩ : EditorView).content)
        (expandSelection ⟨⟨[], 0, 0, 0, 0⟩, ['a', 'b'], 0⟩).ed.selection_end).head? =
        some ' ') ∧
    (∀ p c, (p, c) ∈ charIndices (stripMarkers (⟨⟨[], 0, 0, 0, 0⟩, ['a', 'b'], 0⟩ : EditorView).content) →
      (⟨⟨[], 0, 0, 0, 0⟩, ['a', 'b'], 0⟩ : EditorView).ed.selection_start ≤ p →
      p < (expandSelection ⟨⟨[], 0, 0, 0, 0⟩, ['a', 'b'], 0⟩).ed.selection_end → c ≠ ' ') ∧
    ((expandSelection ⟨⟨[], 0, 0, 0, 0⟩, ['a', 'b'], 0⟩).ed.selection_start ≠
        (expandSelection ⟨⟨[], 0, 0, 0, 0⟩, ['a', 'b'], 0⟩).ed.selection_end →
      (expandSelection ⟨⟨[], 0, 0, 0, 0⟩, ['a', 'b'], 0⟩).ed.selection ≠ [] ∧
      (expandSelection ⟨⟨[], 0, 0, 0, 0⟩, ['a', 'b'], 0⟩).content =
        byteTake (stripMarkers (⟨⟨[], 0, 0, 0, 0⟩, ['a', 'b'], 0⟩ : EditorView).content)
            (expandSelection ⟨⟨[], 0, 0, 0, 0⟩, ['a', 'b'], 0⟩).ed.selection_start ++
          '<' :: '|' :: ((expandSelection ⟨⟨[], 0, 0, 0, 0⟩, ['a', 'b'], 0⟩).ed.selection ++
            '|' :: '>' :: byteDrop (stripMarkers (⟨⟨[], 0, 0, 0, 0⟩, ['a', 'b'], 0⟩ : EditorView).content)
              (expandSelection ⟨⟨[], 0, 0, 0, 0⟩, ['a', 'b'], 0⟩).ed.selection_end)) :=
  c10_expand_from_idle ⟨⟨[], 0, 0, 0, 0⟩, ['a', 'b'], 0⟩ rfl rfl (by decide)

/-- Stripping the markers from a well-rendered selection state recovers the
canonical marker-free text, provided the three pieces contain no marker
characters of their own. -/
theorem strip_render (A S B : List Char) (hA : MarkerFree A) (hS : MarkerFree S)
    (hB : MarkerFree B) :
    stripMarkers (A ++ '<' :: '|' :: (S ++ '|' :: '>' :: B)) = A ++ S ++ B := by
  have hnotin1 : ('<' : Char) ∉ S ++ '|' :: '>' :: B := by
    simp only [List.mem_append, List.mem_cons]
    push_neg
    exact ⟨hS.1, by decide, by decide, hB.1⟩
  have hnotin2 : ('|' : Char) ∉ A ++ S := by
    simp only [List.mem_append]
    push_neg
    exact ⟨hA.2.1, hS.2.1⟩
  rw [stripMarkers,
    replaceList_pair ([] : List Char) A (S ++ '|' :: '>' :: B) (by decide)
      (containsSub_pair_false_of_not_mem '|' hA.1)
      (containsSub_pair_false_of_not_mem '|' hnotin1)]
  have hre : A ++ [] ++ (S ++ '|' :: '>' :: B) = (A ++ S) ++ '|' :: '>' :: B := by
    simp
  rw [hre,
    replaceList_pair ([] : List Char) (A ++ S) B (by decide)
      (containsSub_pair_false_of_not_mem '>' hnotin2)
      (containsSub_pair_false_of_not_mem '>' hB.2.1)]
  simp

/-- C7: if the selection already extends on the left to just after a space (or
to the buffer start) and on the right to a following space (or to the buffer
end), ExpandSelection leaves the selection boundaries, the selection string
and the rendered content unchanged, and any number of repeated applications
causes no further change. -/
theorem c7_expand_idempotent (A S B : List Char) (os oe cursor : Nat)
    (hA : MarkerFree A) (hS : MarkerFree S) (hB : MarkerFree B)
    (hleft : A = [] ∨ ∃ A₀, A = A₀ ++ [' '])
    (hright : B = [] ∨ ∃ B₀, B = ' ' :: B₀) :
    expandSelection ⟨⟨S, utf8Len A, utf8Len A + utf8Len S, os, oe⟩,
      A ++ '<' :: '|' :: (S ++ '|' :: '>' :: B), cursor⟩ =
      ⟨⟨S, utf8Len A, utf8Len A + utf8Len S, os, oe⟩,
        A ++ '<' :: '|' :: (S ++ '|' :: '>' :: B), cursor⟩ ∧
    ∀ n, expandIter n ⟨⟨S, utf8Len A, utf8Len A + utf8Len S, os, oe⟩,
      A ++ '<' :: '|' :: (S ++ '|' :: '>' :: B), cursor⟩ =
      ⟨⟨S, utf8Len A, utf8Len A + utf8Len S, os, oe⟩,
        A ++ '<' :: '|' :: (S ++ '|' :: '>' :: B), cursor⟩ := by
  have hcl : stripMarkers (A ++ '<' :: '|' :: (S ++ '|' :: '>' :: B)) = A ++ S ++ B :=
    strip_render A S B hA hS hB
  have hse0 : utf8Len (A ++ S) = utf8Len A + utf8Len S := utf8Len_append A S
  have hcl2 : stripMarkers (A ++ '<' :: '|' :: (S ++ '|' :: '>' :: B)) = A ++ (S ++ B) := by
    rw [hcl, List.append_assoc]
  have htakeA : byteTake (A ++ (S ++ B)) (utf8Len A) = A := byteTake_append_len A (S ++ B)
  have htakeAS : byteTake (A ++ (S ++ B)) (utf8Len A + utf8Len S) = A ++ S := by
    rw [← List.append_assoc, ← hse0, byteTake_append_len]
  have hdropAS : byteDrop (A ++ (S ++ B)) (utf8Len A + utf8Len S) = B := by
    rw [← List.append_assoc, ← hse0, byteDrop_append_len]
  have hsliceS : byteDrop (byteTake (A ++ (S ++ B)) (utf8Len A + utf8Len S)) (utf8Len A) = S := by
    rw [htakeAS, byteDrop_append_len]
  have hnewL : (if utf8Len A > 0 then
      match rfindChar (byteTake (A ++ (S ++ B)) (utf8Len A)) ' ' with
      | some pos => pos + 1
      | none => 0
    else 0) = utf8Len A := by
    rcases hleft with rfl | ⟨A₀, rfl⟩
    · simp [utf8Len]
    · have hpos : utf8Len (A₀ ++ [' ']) > 0 := by
        rw [utf8Len_concat, space_utf8Size]
        omega
      rw [if_pos hpos, htakeA, rfindChar_concat_self, utf8Len_concat, space_utf8Size]
  have hnewR : (match findChar (byteDrop (A ++ (S ++ B)) (utf8Len A + utf8Len S)) ' ' with
      | some pos => utf8Len A + utf8Len S + pos
      | none => utf8Len (A ++ (S ++ B))) = utf8Len A + utf8Len S := by
    rw [hdropAS]
    rcases hright with rfl | ⟨B₀, rfl⟩
    · simp [findChar, utf8Len_append, utf8Len]
    · simp [findChar_cons_self]
  have hmain : expandSelection ⟨⟨S, utf8Len A, utf8Len A + utf8Len S, os, oe⟩,
      A ++ '<' :: '|' :: (S ++ '|' :: '>' :: B), cursor⟩ =
      ⟨⟨S, utf8Len A, utf8Len A + utf8Len S, os, oe⟩,
        A ++ '<' :: '|' :: (S ++ '|' :: '>' :: B), cursor⟩ := by
    simp only [expandSelection, hcl2, hnewL, hnewR]
    by_cases hSnil : S = []
    · subst hSnil
      have hcond : utf8Len A = utf8Len A + utf8Len ([] : List Char) := by
        show utf8Len A = utf8Len A + 0
        omega
      simp only [Editor.update_selection, if_pos hcond]
      rw [htakeA, hdropAS]
    · have hne : ¬ (utf8Len A = utf8Len A + utf8Len S) := by
        have : utf8Len S ≠ 0 := fun h => hSnil (utf8Len_eq_zero.mp h)
        omega
      simp only [Editor.update_selection, if_neg hne]
      rw [hsliceS, htakeA, hdropAS]
  refine ⟨hmain, ?_⟩
  intro n
  induction n with
  | zero => rfl
  | succ n ih =>
    show expandSelection (expandIter n _) = _
    rw [ih, hmain]

/-- C7 witness: the selection `a` of `"x a y"` (rendered `"x <|a|> y"`), already
bounded by spaces on both sides, is a fixed point of ExpandSelection. -/
theorem c7_witness :
    expandSelection ⟨⟨['a'], utf8Len ['x', ' '], utf8Len ['x', ' '] + utf8Len ['a'], 5, 7⟩,
      ['x', ' '] ++ '<' :: '|' :: (['a'] ++ '|' :: '>' :: [' ', 'y']), 3⟩ =
      ⟨⟨['a'], utf8Len ['x', ' '], utf8Len ['x', ' '] + utf8Len ['a'], 5, 7⟩,
        ['x', ' '] ++ '<' :: '|' :: (['a'] ++ '|' :: '>' :: [' ', 'y']), 3⟩ ∧
    ∀ n, expandIter n ⟨⟨['a'], utf8Len ['x', ' '], utf8Len ['x', ' '] + utf8Len ['a'], 5, 7⟩,
      ['x', ' '] ++ '<' :: '|' :: (['a'] ++ '|' :: '>' :: [' ', 'y']), 3⟩ =
      ⟨⟨['a'], utf8Len ['x', ' '], utf8Len ['x', ' '] + utf8Len ['a'], 5, 7⟩,
        ['x', ' '] ++ '<' :: '|' :: (['a'] ++ '|' :: '>' :: [' ', 'y']), 3⟩ :=
  c7_expand_idempotent ['x', ' '] ['a'] [' ', 'y'] 5 7 3
    ⟨by decide, by decide, by decide⟩ ⟨by decide, by decide, by decide⟩
    ⟨by decide, by decide, by decide⟩
    (Or.inr ⟨['x'], rfl⟩) (Or.inr ⟨['y'], rfl⟩)

/-- C8: every SelectionEngine operation — `update_selection`, ToggleSelection
in either direction, ExpandSelection and ReduceSelection — preserves the state
invariant `SelInv` (`selection_start ≤ selection_end`, and equal boundaries
whenever the selection string is empty).  The ordering and boundary
hypotheses are the validity conditions under which the Rust slicing in each
operation runs without panicking. -/
theorem c8_invariant_preservation :
    (∀ (ed : Editor) (content : List Char) (s e : Nat), s ≤ e →
      isBoundaryB content s = true → isBoundaryB content e = true →
      SelInv (ed.update_selection content s e)) ∧
    (∀ st : EditorView, SelInv st.ed → isBoundaryB st.content st.cursor = true →
      SelInv (toggleSelection st).ed) ∧
    (∀ st : EditorView, st.ed.selection_start ≤ st.ed.selection_end →
      isBoundaryB (stripMarkers st.content) st.ed.selection_start = true →
      isBoundaryB (stripMarkers st.content) st.ed.selection_end = true →
      SelInv (expandSelection st).ed) ∧
    (∀ st : EditorView, st.ed.original_selection_start ≤ st.ed.original_selection_end →
      isBoundaryB (stripMarkers st.content) st.ed.original_selection_start = true →
      isBoundaryB (stripMarkers st.content) st.ed.original_selection_end = true →
      SelInv (reduceSelection st).ed) := by
  have part1 : ∀ (ed : Editor) (content : List Char) (s e : Nat), s ≤ e →
      isBoundaryB content s = true → isBoundaryB content e = true →
      SelInv (ed.update_selection content s e) := by
    intro ed content s e hle hbs hbe
    constructor
    · rw [update_selection_start, update_selection_end]
      exact hle
    · rw [update_selection_selection, update_selection_start, update_selection_end]
      by_cases heq : s = e
      · intro _
        exact heq
      · rw [if_neg heq]
        intro hnil
        exact absurd hnil (slice_ne_nil hbs hbe (by omega))
  refine ⟨part1, ?_, ?_, ?_⟩
  · intro st hinv hb
    by_cases hsel : st.ed.selection = []
    · by_cases hlt : st.cursor < utf8Len st.content
      · cases hdrop : byteDrop st.content st.cursor with
        | nil =>
          have hst : toggleSelection st = st := by
            simp only [toggleSelection, hsel, hlt, hdrop]
            simp
          rw [hst]
          exact hinv
        | cons ch B' =>
          obtain ⟨A, B0, hsplit, hlenA, htake, hdrop0⟩ := boundary_decomp hb
          have hB0 : B0 = ch :: B' := by rw [← hdrop0, hdrop]
          subst hB0
          have hbe : isBoundaryB st.content (st.cursor + ch.utf8Size) = true := by
            rw [hsplit, ← hlenA]
            exact isBoundaryB_after A ch B'
          have hed : (toggleSelection st).ed =
              { st.ed.update_selection st.content st.cursor (st.cursor + ch.utf8Size) with
                original_selection_start := st.cursor
                original_selection_end := st.cursor + ch.utf8Size } := by
            simp only [toggleSelection, hsel, hlt, hdrop]
            simp
          rw [hed]
          have hpos := ch.utf8Size_pos
          have h := part1 st.ed st.content st.cursor (st.cursor + ch.utf8Size)
            (by omega) hb hbe
          exact ⟨h.1, h.2⟩
      · have hst : toggleSelection st = st := by
          simp only [toggleSelection, hsel, hlt]
          simp
        rw [hst]
        exact hinv
    · have hed : (toggleSelection st).ed =
          { st.ed with
            selection := []
            selection_start := st.cursor
            selection_end := st.cursor } := by
        simp only [toggleSelection, if_neg hsel]
      rw [hed]
      exact ⟨le_refl _, fun _ => rfl⟩
  · intro st hle hbs hbe
    obtain ⟨h1, h2, hbL, hbR, hRle, h3, h4, h5, h6, h7⟩ := expand_characterization st hbs hbe
    have hLR : (expandSelection st).ed.selection_start ≤
        (expandSelection st).ed.selection_end := by omega
    have himp : (expandSelection st).ed.selection = [] →
        (expandSelection st).ed.selection_start = (expandSelection st).ed.selection_end := by
      intro hnil
      by_contra hne
      rw [h7] at hnil
      exact slice_ne_nil hbL hbR (by omega) hnil
    exact ⟨hLR, himp⟩
  · intro st hle hbs hbe
    have hed : (reduceSelection st).ed =
        st.ed.update_selection (stripMarkers st.content)
          st.ed.original_selection_start st.ed.original_selection_end := rfl
    rw [hed]
    exact part1 _ _ _ _ hle hbs hbe

/-- C8 witness: the update_selection part of the invariant theorem applied at
a concrete editor, content and boundaries. -/
theorem c8_witness : SelInv (Editor.new.update_selection ['a', 'b'] 0 1) :=
  c8_invariant_preservation.1 Editor.new ['a', 'b'] 0 1
    (by decide) (by decide) (by decide)

/-! Lemmas for the ReduceSelection-after-Expand claim. -/

theorem reduceSelection_ed_eq (st : EditorView) :
    (reduceSelection st).ed =
      st.ed.update_selection (stripMarkers st.content)
        st.ed.original_selection_start st.ed.original_selection_end := rfl

theorem reduceSelection_cursor_eq (st : EditorView) :
    (reduceSelection st).cursor = st.ed.original_selection_start + 2 := rfl

theorem reduceSelection_content_eq (st : EditorView) :
    (reduceSelection st).content =
      byteTake (stripMarkers st.content) st.ed.original_selection_start ++
        '<' :: '|' :: (byteDrop
            (byteTake (stripMarkers st.content) st.ed.original_selection_end)
            st.ed.original_selection_start ++
          '|' :: '>' :: byteDrop (stripMarkers st.content)
            st.ed.original_selection_end) := rfl

theorem expandIter_orig (n : Nat) (st : EditorView) :
    (expandIter n st).ed.original_selection_start = st.ed.original_selection_start ∧
    (expandIter n st).ed.original_selection_end = st.ed.original_selection_end := by
  induction n with
  | zero => exact ⟨rfl, rfl⟩
  | succ n ih =>
    constructor
    · show (expandSelection (expandIter n st)).ed.original_selection_start = _
      rw [expandSelection_orig_start_eq]
      exact ih.1
    · show (expandSelection (expandIter n st)).ed.original_selection_end = _
      rw [expandSelection_orig_end_eq]
      exact ih.2

/-- C4: after a ToggleSelection that created a selection (recording the
original single-character boundaries) and any number `n ≥ 1` of
ExpandSelection calls, a single ReduceSelection sets `selection_start` and
`selection_end` back to the recorded original boundaries (the single character
at the toggle cursor, not any intermediate expansion), re-renders the markers
at those original boundaries in the marker-free content, and sets the cursor
to `original_selection_start + 2`. -/
theorem c4_reduce_restores_original (ed : Editor) (content : List Char) (cur n : Nat)
    (hsel : ed.selection = [])
    (hb : isBoundaryB content cur = true)
    (hlt : cur < utf8Len content)
    (_hn : 1 ≤ n) :
    ∃ ch rest, byteDrop content cur = ch :: rest ∧
      (toggleSelection ⟨ed, content, cur⟩).ed.original_selection_start = cur ∧
      (toggleSelection ⟨ed, content, cur⟩).ed.original_selection_end = cur + ch.utf8Size ∧
      (reduceSelection (expandIter n (toggleSelection ⟨ed, content, cur⟩))).ed.selection_start =
        (toggleSelection ⟨ed, content, cur⟩).ed.original_selection_start ∧
      (reduceSelection (expandIter n (toggleSelection ⟨ed, content, cur⟩))).ed.selection_end =
        (toggleSelection ⟨ed, content, cur⟩).ed.original_selection_end ∧
      (reduceSelection (expandIter n (toggleSelection ⟨ed, content, cur⟩))).cursor =
        (toggleSelection ⟨ed, content, cur⟩).ed.original_selection_start + 2 ∧
      (reduceSelection (expandIter n (toggleSelection ⟨ed, content, cur⟩))).content =
        byteTake (stripMarkers (expandIter n (toggleSelection ⟨ed, content, cur⟩)).content)
            cur ++
          '<' :: '|' :: (byteDrop
              (byteTake (stripMarkers
                  (expandIter n (toggleSelection ⟨ed, content, cur⟩)).content)
                (cur + ch.utf8Size)) cur ++
            '|' :: '>' :: byteDrop
              (stripMarkers (expandIter n (toggleSelection ⟨ed, content, cur⟩)).content)
              (cur + ch.utf8Size)) := by
  obtain ⟨A, B0, hsplit, hlenA, htake, hdrop0⟩ := boundary_decomp hb
  have hBne : B0 ≠ [] := by
    rw [← hdrop0]
    exact byteDrop_ne_nil hb hlt
  cases B0 with
  | nil => exact absurd rfl hBne
  | cons ch B' =>
    refine ⟨ch, B', hdrop0, ?_⟩
    have hed : (toggleSelection ⟨ed, content, cur⟩).ed =
        { ed.update_selection content cur (cur + ch.utf8Size) with
          original_selection_start := cur
          original_selection_end := cur + ch.utf8Size } := by
      simp only [toggleSelection, hsel, hlt, hdrop0]
      simp
    have horig1 : (toggleSelection ⟨ed, content, cur⟩).ed.original_selection_start = cur := by
      rw [hed]
    have horig2 : (toggleSelection ⟨ed, content, cur⟩).ed.original_selection_end =
        cur + ch.utf8Size := by
      rw [hed]
    have hiter := expandIter_orig n (toggleSelection ⟨ed, content, cur⟩)
    refine ⟨horig1, horig2, ?_, ?_, ?_, ?_⟩
    · rw [reduceSelection_ed_eq, update_selection_start, hiter.1]
    · rw [reduceSelection_ed_eq, update_selection_end, hiter.2]
    · rw [reduceSelection_cursor_eq, hiter.1]
    · rw [reduceSelection_content_eq, hiter.1, hiter.2, horig1, horig2]

/-- C4 witness: toggle at cursor 0 of `"ab"`, expand once, reduce. -/
theorem c4_witness :
    ∃ ch rest, byteDrop ['a', 'b'] 0 = ch :: rest ∧
      (toggleSelection ⟨Editor.new, ['a', 'b'], 0⟩).ed.original_selection_start = 0 ∧
      (toggleSelection ⟨Editor.new, ['a', 'b'], 0⟩).ed.original_selection_end =
        0 + ch.utf8Size ∧
      (reduceSelection (expandIter 1 (toggleSelection ⟨Editor.new, ['a', 'b'], 0⟩))).ed.selection_start =
        (toggleSelection ⟨Editor.new, ['a', 'b'], 0⟩).ed.original_selection_start ∧
      (reduceSelection (expandIter 1 (toggleSelection ⟨Editor.new, ['a', 'b'], 0⟩))).ed.selection_end =
        (toggleSelection ⟨Editor.new, ['a', 'b'], 0⟩).ed.original_selection_end ∧
      (reduceSelection (expandIter 1 (toggleSelection ⟨Editor.new, ['a', 'b'], 0⟩))).cursor =
        (toggleSelection ⟨Editor.new, ['a', 'b'], 0⟩).ed.original_selection_start + 2 ∧
      (reduceSelection (expandIter 1 (toggleSelection ⟨Editor.new, ['a', 'b'], 0⟩))).content =
        byteTake (stripMarkers (expandIter 1 (toggleSelection ⟨Editor.new, ['a', 'b'], 0⟩)).content)
            0 ++
          '<' :: '|' :: (byteDrop
              (byteTake (stripMarkers
                  (expandIter 1 (toggleSelection ⟨Editor.new, ['a', 'b'], 0⟩)).content)
                (0 + ch.utf8Size)) 0 ++
            '|' :: '>' :: byteDrop
              (stripMarkers (expandIter 1 (toggleSelection ⟨Editor.new, ['a', 'b'], 0⟩)).content)
              (0 + ch.utf8Size)) :=
  c4_reduce_restores_original Editor.new ['a', 'b'] 0 1 rfl (by decide) (by decide) (by decide)

end WasDev
